import Mathlib

/-!
Verification of the BBNF parser generator's grammar-analysis pipeline.

The definitions below are a shallow embedding of the C++ sources:
  * grammar AST (`grammar.h`, `parsebbnf.cpp`),
  * FIRST/FOLLOW computation and parsing-table construction
    (`main.cpp`, `parsebbnf.cpp`),
  * the recursive-descent code emitter's conjunct templates (`main.cpp`),
  * the token-level BBNF parser (`parsebbnf.cpp` and `bbnf_parser.cpp`),
  * the character-level lexer (`parsebbnf.cpp` and `input_parser.cpp`).

`std::set<std::string>` is modelled as `Finset String` (iteration order of
the C++ sorted set only matters where it changes the result; each such
place is noted).  `std::map` analysis state is modelled as total functions
`String → _` defaulting to the empty set, matching `operator[]`'s
default construction.  Fatal `exit(1)` paths and C++ divergence are
modelled as `Option.none`.
-/

namespace BGParse

/-- Kind of a grammar symbol: non-terminal, terminal literal, or epsilon
(`SYMBOL.type` in `grammar.h`). -/
inductive SymbKind where
  | nt
  | lit
  | eps
deriving DecidableEq, Repr

/-- A symbol in a conjunct (`SYMBOL` in `grammar.h`): a kind and the
symbol text. -/
structure Symb where
  kind : SymbKind
  str : String
deriving DecidableEq, Repr

/-- A conjunct (`Conjunct` node): positivity flag and symbol sequence. -/
structure Conjunct where
  pos : Bool
  symbols : List Symb
deriving DecidableEq, Repr

/-- A rule is a list of conjuncts; a disjunction is a list of rules
(`Rule` and `Disj` nodes hold `GNodeList`s). -/
abbrev RuleT := List Conjunct

abbrev DisjT := List RuleT

/-- A grammar maps non-terminal names to disjunctions
(`std::map<std::string, GNode>`); modelled as an association list with
unique keys. -/
abbrev GrammarT := List (String × DisjT)

/-- Pointwise update of a map modelled as a total function
(`m[k] = v` on a `std::map`). -/
def fupd {α : Type} (m : String → α) (k : String) (v : α) : String → α :=
  fun x => if x = k then v else m x

/-- Grammar lookup.  `grammar[s]` on a missing key default-constructs a
null node in C++ (and dereferencing it is undefined); theorems that
depend on lookups carry hypotheses keeping them on defined keys, so the
default value is never relied upon. -/
def disjOf (grammar : GrammarT) (nt : String) : DisjT :=
  match grammar.lookup nt with
  | some d => d
  | none => []

--------------------------------
-- Non-terminal references (C7)
--------------------------------

/-- Non-terminal names appearing in a symbol list; the loop body shared by
both `Conjunct::references` variants. -/
def ntsOfSymbols (symbols : List Symb) : Finset String :=
  symbols.foldl (fun acc s => if s.kind = .nt then insert s.str acc else acc) ∅

/-- `Conjunct::references` as in `main.cpp` (lines 320-327): every
non-terminal in the conjunct, negative conjuncts included. -/
def conjReferencesMain (c : Conjunct) : Finset String :=
  ntsOfSymbols c.symbols

/-- `Conjunct::references` as in `parsebbnf.cpp` (lines 401-406): the
stored non-terminal set if the conjunct is positive, the empty set if it
is negative. -/
def conjReferencesPB (c : Conjunct) : Finset String :=
  if c.pos then ntsOfSymbols c.symbols else ∅

/-- `Rule::references`: union over the rule's conjuncts. -/
def ruleReferences (conjRefs : Conjunct → Finset String) (r : RuleT) :
    Finset String :=
  r.foldl (fun acc c => acc ∪ conjRefs c) ∅

/-- `Disj::references`: union over the disjunction's rules. -/
def disjReferences (conjRefs : Conjunct → Finset String) (d : DisjT) :
    Finset String :=
  d.foldl (fun acc r => acc ∪ ruleReferences conjRefs r) ∅

/-- Spec-side description for claim C7: the set of non-terminal names
appearing anywhere in the disjunction (in any conjunct, positive or
negative). -/
def ntNamesOfDisj (d : DisjT) : Finset String :=
  disjReferences conjReferencesMain d

/-- Spec-side description: non-terminal names appearing in the
disjunction's positive conjuncts only. -/
def ntNamesOfDisjPos (d : DisjT) : Finset String :=
  disjReferences conjReferencesPB d

--------------------------------
-- FIRST sets (C2, C3, C10)
--------------------------------

/-- The loop of `Conjunct::firstSet` for a positive conjunct
(`main.cpp` 386-413, `parsebbnf.cpp` 473-499): walk the symbols
left-to-right, accumulating the FIRST set, until a non-nullable symbol
is reached; the returned flag is the conjunct's `Nullable` field, which
starts `true` and is cleared exactly where the source assigns `false`. -/
def conjFirstAux (firstMap : String → Finset String) :
    List Symb → Finset String → Finset String × Bool
  | [], acc => (acc, true)
  | s :: rest, acc =>
    match s.kind with
    | .eps => (insert "" acc, true)
    | .lit => (insert s.str acc, false)
    | .nt =>
      let fs := firstMap s.str
      if "" ∈ fs then conjFirstAux firstMap rest (acc ∪ fs)
      else (acc ∪ fs, false)

/-- `Conjunct::firstSet`: a negative conjunct returns the whole alphabet
without touching its symbols or its `Nullable` flag; a positive conjunct
runs the scan starting from the empty set. -/
def conjFirstSet (alphabet : Finset String)
    (firstMap : String → Finset String) (c : Conjunct) :
    Finset String × Bool :=
  if c.pos then conjFirstAux firstMap c.symbols ∅ else (alphabet, true)

/-- `Rule::firstSet` (`main.cpp` 417-431, `parsebbnf.cpp` 503-517):
start from the whole alphabet and, for each conjunct, erase the elements
not in that conjunct's FIRST set. -/
def ruleFirstSet (alphabet : Finset String)
    (firstMap : String → Finset String) (r : RuleT) : Finset String :=
  r.foldl
    (fun fs c => fs.filter (fun t => t ∈ (conjFirstSet alphabet firstMap c).1))
    alphabet

/-- `Disj::firstSet`: union of the rules' FIRST sets. -/
def disjFirstSet (alphabet : Finset String)
    (firstMap : String → Finset String) (d : DisjT) : Finset String :=
  d.foldl (fun fs r => fs ∪ ruleFirstSet alphabet firstMap r) ∅

/-- Spec-side description for claim C3, following the spec's wording: an
EPSILON symbol contributes `{""}` and stops the scan; a terminal `t`
contributes `{t}` and stops with the conjunct non-nullable; a
non-terminal `M` contributes `first[M]` and stops (non-nullable) iff
`"" ∉ first[M]`; reaching the end leaves the conjunct nullable. -/
def conjFirstSpec (firstMap : String → Finset String) :
    List Symb → Finset String × Bool
  | [] => (∅, true)
  | s :: rest =>
    match s.kind with
    | .eps => ({""}, true)
    | .lit => ({s.str}, false)
    | .nt =>
      let fs := firstMap s.str
      if "" ∈ fs then
        let r := conjFirstSpec firstMap rest
        (fs ∪ r.1, r.2)
      else (fs, false)

--------------------------------
-- FOLLOW sets (C4)
--------------------------------

/-- The inner `while` loop of `Conjunct::followAdd` (`main.cpp` 469-485):
starting from the symbols to the right of the non-terminal occurrence
`cur`, insert FOLLOW contributions into `follow[cur]` until a
non-nullable symbol is found; returns the updated map and the
`nonNullableFound` flag.  An epsilon symbol matches neither branch of the
loop body and is skipped. -/
def innerScan (firstMap : String → Finset String) (cur : String) :
    List Symb → (String → Finset String) → (String → Finset String) × Bool
  | [], follow => (follow, false)
  | s :: rest, follow =>
    match s.kind with
    | .lit => (fupd follow cur (insert s.str (follow cur)), true)
    | .nt =>
      let fs := firstMap s.str
      let follow' := fupd follow cur (follow cur ∪ fs)
      if "" ∈ fs then innerScan firstMap cur rest follow'
      else (follow', true)
    | .eps => innerScan firstMap cur rest follow

/-- Processing one non-terminal occurrence `cur` in a conjunct of the
non-terminal `nt` (`main.cpp` 460-493): run the scan over the suffix and,
if no non-nullable symbol was found and `nt ≠ cur`, add `follow[nt]` to
`follow[cur]`.  (The `followSets.count == 0` key-creation in the source
is a no-op in this total-function model.) -/
def occProcess (firstMap : String → Finset String) (nt cur : String)
    (rest : List Symb) (follow : String → Finset String) :
    String → Finset String :=
  let st := innerScan firstMap cur rest follow
  if st.2 = false ∧ nt ≠ cur then
    fupd st.1 cur (st.1 cur ∪ st.1 nt)
  else st.1

/-- `Conjunct::followAdd`: iterate over the conjunct's symbols; each
non-terminal occurrence is processed against the suffix to its right. -/
def conjFollowAdd (firstMap : String → Finset String) (nt : String) :
    List Symb → (String → Finset String) → (String → Finset String)
  | [], follow => follow
  | s :: rest, follow =>
    let follow' :=
      if s.kind = .nt then occProcess firstMap nt s.str rest follow
      else follow
    conjFollowAdd firstMap nt rest follow'

/-- `Rule::followAdd`: process every conjunct (negative ones included). -/
def ruleFollowAdd (firstMap : String → Finset String) (nt : String)
    (r : RuleT) (follow : String → Finset String) : String → Finset String :=
  r.foldl (fun f c => conjFollowAdd firstMap nt c.symbols f) follow

/-- `Disj::followAdd`: process every rule. -/
def disjFollowAdd (firstMap : String → Finset String) (nt : String)
    (d : DisjT) (follow : String → Finset String) : String → Finset String :=
  d.foldl (fun f r => ruleFollowAdd firstMap nt r f) follow

/-- The FOLLOW-phase loop of `main` (`main.cpp` 632-640): process the
non-terminals of the (already reversed) topological order in turn. -/
def followPhaseAux (firstMap : String → Finset String) (grammar : GrammarT) :
    List String → (String → Finset String) → (String → Finset String)
  | [], follow => follow
  | s :: rest, follow =>
    followPhaseAux firstMap grammar rest
      (disjFollowAdd firstMap s (disjOf grammar s) follow)

/-- The FOLLOW phase: reverse the topological order; the first symbol of
the reversed order (the start symbol) has its FOLLOW set reset to `{""}`
before any conjunct is processed. -/
def followPhase (firstMap : String → Finset String) (grammar : GrammarT)
    (ntOrder : List String) (follow : String → Finset String) :
    String → Finset String :=
  match ntOrder.reverse with
  | [] => follow
  | s :: rest => followPhaseAux firstMap grammar (s :: rest)
      (fupd follow s {""})

/-- Spec-side description for claim C4: the FOLLOW contribution of the
suffix to the right of a non-terminal occurrence — each terminal is
added, each non-terminal contributes its FIRST set, stopping at the
first non-nullable symbol; the flag records whether the scan ran off the
end of the conjunct. -/
def followContribution (firstMap : String → Finset String) :
    List Symb → Finset String × Bool
  | [] => (∅, true)
  | s :: rest =>
    match s.kind with
    | .lit => ({s.str}, false)
    | .nt =>
      let fs := firstMap s.str
      if "" ∈ fs then
        let r := followContribution firstMap rest
        (fs ∪ r.1, r.2)
      else (fs, false)
    | .eps => followContribution firstMap rest

/-- Spec-side description for claim C4: one occurrence `C = cur` in a
conjunct of `N = nt` adds to `follow[C]` the suffix contribution, plus
all of `follow[N]` when the scan ran off the end and `C ≠ N`. -/
def specOccProcess (firstMap : String → Finset String) (nt cur : String)
    (rest : List Symb) (follow : String → Finset String) :
    String → Finset String :=
  let r := followContribution firstMap rest
  let extra := if r.2 = true ∧ cur ≠ nt then follow nt else ∅
  fupd follow cur (follow cur ∪ r.1 ∪ extra)

/-- Spec-side variant of `conjFollowAdd` built from `specOccProcess`. -/
def specConjFollowAdd (firstMap : String → Finset String) (nt : String) :
    List Symb → (String → Finset String) → (String → Finset String)
  | [], follow => follow
  | s :: rest, follow =>
    let follow' :=
      if s.kind = .nt then specOccProcess firstMap nt s.str rest follow
      else follow
    specConjFollowAdd firstMap nt rest follow'

--------------------------------
-- Parsing table (C1, C10)
--------------------------------

/-- The per-rule analysis results cached on a `Rule` node during the
FIRST phase: the rule's conjunct list, its cached `Firsts`, and each
conjunct's cached `Nullable` flag. -/
structure RuleInfo where
  conjs : List Conjunct
  firsts : Finset String
  nullFlags : List Bool
deriving DecidableEq

/-- Running `Rule::firstSet` on a rule caches the rule's FIRST set and
the conjuncts' nullable flags, all computed against the FIRST map state
at that moment. -/
def analyzeRule (alphabet : Finset String)
    (firstMap : String → Finset String) (r : RuleT) : RuleInfo :=
  ⟨r, ruleFirstSet alphabet firstMap r,
    r.map (fun c => (conjFirstSet alphabet firstMap c).2)⟩

/-- The insertion condition of `Rule::updateTable` (`main.cpp` 532): the
terminal is in the rule's cached FIRST set, or the rule is nullable
(every conjunct's cached flag is true — the `while` loop recomputing
`Nullable` from the conjunct flags) and the terminal is in `follow[nt]`. -/
def ruleQualifies (follow : String → Finset String) (nt t : String)
    (info : RuleInfo) : Prop :=
  t ∈ info.firsts ∨ (info.nullFlags.all id = true ∧ t ∈ follow nt)

instance (follow : String → Finset String) (nt t : String)
    (info : RuleInfo) : Decidable (ruleQualifies follow nt t info) := by
  rw [ruleQualifies]; infer_instance

/-- `Rule::updateTable` (`main.cpp` 521-541, `parsebbnf.cpp` 607-627):
for each terminal of the alphabet satisfying the condition, overwrite
the table entry `(nt, s)` with the rule's conjunct list.  The C++ loop
iterates the alphabet `std::set` in sorted order; it is modelled as a
list, since each terminal writes a distinct key and iteration order does
not affect the resulting map. -/
def ruleUpdateTable (alphabet : List String)
    (follow : String → Finset String) (nt : String) (info : RuleInfo)
    (table : String × String → Option (List Conjunct)) :
    String × String → Option (List Conjunct) :=
  alphabet.foldl
    (fun tbl s =>
      if ruleQualifies follow nt s info then
        fun k => if k = (nt, s) then some info.conjs else tbl k
      else tbl)
    table

/-- `Disj::updateTable`: rules are inserted in disjunction order, a later
rule overwriting an earlier one in any shared cell. -/
def disjUpdateTable (alphabet : List String)
    (follow : String → Finset String) (nt : String)
    (infos : List RuleInfo)
    (table : String × String → Option (List Conjunct)) :
    String × String → Option (List Conjunct) :=
  infos.foldl (fun tbl info => ruleUpdateTable alphabet follow nt info tbl)
    table

/-- The table-construction loop of `main` (`main.cpp` 648-649): call
`updateTable` for every non-terminal's disjunction, reading the caches
left by the FIRST phase. -/
def tablePhase (alphabet : List String)
    (follow : String → Finset String) (cache : String → List RuleInfo)
    (grammar : GrammarT)
    (table : String × String → Option (List Conjunct)) :
    String × String → Option (List Conjunct) :=
  grammar.foldl
    (fun tbl e => disjUpdateTable alphabet follow e.1 (cache e.1) tbl)
    table

--------------------------------
-- Analysis pipeline (C9)
--------------------------------

/-- Depth-first search over the reference adjacency map (`main.cpp`
351-361): mark the non-terminal visited, recurse into its unvisited
references, then append it to the post-order.  The C++ recursion
terminates because the visited set grows; here `fuel` bounds the depth.
The reference set is supplied as a list: the C++ iterates the
`std::set` in sorted order, and the enumeration order only affects the
order in which `ntOrder` lists the non-terminals, on which no theorem
below depends.  The theorems below rely only on `dfs` marking its
argument visited, which holds for every fuel value. -/
def dfs (refs : String → List String) :
    Nat → String → Finset String × List String → Finset String × List String
  | 0, nt, st => (insert nt st.1, st.2 ++ [nt])
  | fuel + 1, nt, st =>
    let st1 : Finset String × List String := (insert nt st.1, st.2)
    let st2 := (refs nt).foldl
      (fun acc s => if s ∈ acc.1 then acc else dfs refs fuel s acc) st1
    (st2.1, st2.2 ++ [nt])

/-- `topologicalSort` (`main.cpp` 364-373): run `dfs` from every not-yet
visited key.  The `visited` set is a module-level global in the source,
so it is taken as an input and returned; the order accumulator is a
local, so it starts empty on every call. -/
def topologicalSort (refs : String → List String) (keys : List String)
    (fuel : Nat) (visited : Finset String) :
    Finset String × List String :=
  keys.foldl (fun st nt => if nt ∈ st.1 then st else dfs refs fuel nt st)
    (visited, [])

/-- The FIRST phase of `main` (`main.cpp` 626-629): for each non-terminal
in topological order, compute its disjunction's FIRST set against the
current FIRST map and store it; `Rule::firstSet` also caches the per-rule
firsts and per-conjunct nullable flags at this moment. -/
def firstPhase (alphabet : Finset String) (grammar : GrammarT) :
    List String → (String → Finset String) → (String → List RuleInfo) →
      (String → Finset String) × (String → List RuleInfo)
  | [], fm, cache => (fm, cache)
  | nt :: rest, fm, cache =>
    let d := disjOf grammar nt
    firstPhase alphabet grammar rest
      (fupd fm nt (disjFirstSet alphabet fm d))
      (fupd cache nt (d.map (analyzeRule alphabet fm)))

/-- The set of non-terminal names referenced anywhere in a disjunction
(`main.cpp` variant of `references`), enumerated as a duplicate-free
list in order of first occurrence.  The C++ `std::set` enumerates the
same names in sorted order; see the remark on `dfs` about order. -/
def refsListOfDisj (d : DisjT) : List String :=
  d.foldl (fun acc r => r.foldl (fun acc c =>
    c.symbols.foldl (fun acc s =>
      if s.kind = .nt ∧ s.str ∉ acc then acc ++ [s.str] else acc) acc) acc) []

/-- The analyser's mutable state: the global `visited`, `firstSets`,
`followSets` and `parseTable` maps, plus the per-node caches written by
the FIRST phase (modelled as a map from non-terminal to its rules'
cached analysis). -/
structure GState where
  visited : Finset String
  firstMap : String → Finset String
  cache : String → List RuleInfo
  followMap : String → Finset String
  table : String × String → Option (List Conjunct)

/-- The per-run outputs that the driver prints: the topological order,
the FIRST listing (printed in topological order) and the FOLLOW listing
(printed in reverse topological order). -/
structure RunOut where
  ntOrder : List String
  firstList : List (String × Finset String)
  followList : List (String × Finset String)
deriving DecidableEq

/-- The analyser's state at program start. -/
def initGState : GState :=
  ⟨∅, fun _ => ∅, fun _ => [], fun _ => ∅, fun _ => none⟩

/-- One run of the analyser (`main.cpp` 607-660): build the reference
map, topologically sort, compute FIRST sets in that order, FOLLOW sets
in the reverse order, then the parsing table.  Takes and returns the
global state, so a second run starts from the first run's state. -/
def runAnalysis (alphabet : List String) (grammar : GrammarT)
    (fuel : Nat) (st : GState) : GState × RunOut :=
  let keys := grammar.map Prod.fst
  let refs := fun nt => refsListOfDisj (disjOf grammar nt)
  let ts := topologicalSort refs keys fuel st.visited
  let ntOrder := ts.2
  let fc := firstPhase alphabet.toFinset grammar ntOrder st.firstMap st.cache
  let follow' := followPhase fc.1 grammar ntOrder st.followMap
  let table' := tablePhase alphabet follow' fc.2 grammar st.table
  (⟨ts.1, fc.1, fc.2, follow', table'⟩,
   ⟨ntOrder, ntOrder.map (fun s => (s, fc.1 s)),
     ntOrder.reverse.map (fun s => (s, follow' s))⟩)

--------------------------------
-- Emitted-parser code generation (C5)
--------------------------------

/-- The `symbolSequence` loop of `main`'s emitter (`main.cpp` 703-713):
join per-symbol parse calls with `" && "`.  `terminalNos`/`nonTerminalNos`
are the numberings of terminals and non-terminals.  As in the source, an
EPSILON symbol emits no call but still advances the separator counter
(harmless, since the parser removed epsilons from longer conjuncts). -/
def symbolSequence (tNos nNos : String → Nat) (symbols : List Symb) :
    String :=
  (symbols.foldl (fun (acc : String × Nat) symb =>
    let acc1 := if acc.2 > 0 then acc.1 ++ " && " else acc.1
    let acc2 :=
      if symb.kind = .lit then
        acc1 ++ "terminal" ++ toString (tNos symb.str) ++ "()"
      else if symb.kind = .nt then
        acc1 ++ "nonTerminal" ++ toString (nNos symb.str) ++ "()"
      else acc1
    (acc2, acc.2 + 1)) ("", 0)).1

/-- The code emitted for one conjunct of a table entry (`main.cpp`
715-752): a positive conjunct with a non-empty symbol sequence gets the
plain call sequence, wrapped — when the rule has more than one conjunct —
in `start`/`end` recording when it is conjunct number 0, or in a
`pos = start` reset plus `pos == end` check otherwise; a negative
conjunct resets `pos = start`, records success, fails on success at
`pos == end`, and appends `pos = end` when it is the rule's last
conjunct; a positive conjunct with an empty sequence emits nothing. -/
def tableEntryConj (tNos nNos : String → Nat) (conj : Conjunct)
    (conjNo ruleSize : Nat) : String :=
  let seq := symbolSequence tNos nNos conj.symbols
  if conj.pos = true ∧ seq ≠ "" then
    let base := "        if (!(" ++ seq ++ "))\n            return false;\n"
    if ruleSize > 1 then
      if conjNo = 0 then
        "        start = pos;\n" ++ base ++ "        end = pos;\n"
      else
        "\n        pos = start;" ++ base ++
          "\n        if (pos != end)\n            return false;\n"
    else base
  else if conj.pos = false then
    let isLast := if conjNo = ruleSize - 1 then "\n        pos = end;" else ""
    "\n        pos = start;\n        bool success = (" ++ seq ++
      ");\n        if (success && (pos == end))\n            return false;" ++
      isLast ++ "\n"
  else ""

/-- Concatenate the per-conjunct code pieces, numbering conjuncts from
0 (the `conjNo` counter of the emitter loop). -/
def emitConjs (f : Conjunct → Nat → String) (conjs : List Conjunct) :
    String :=
  (conjs.foldl (fun (acc : String × Nat) c =>
    (acc.1 ++ f c acc.2, acc.2 + 1)) ("", 0)).1

/-- The body emitted for one parsing-table entry (the `tableEntryConjuncts`
accumulation of `main.cpp` 698-755). -/
def ruleBody (tNos nNos : String → Nat) (conjs : List Conjunct) : String :=
  emitConjs (fun c i => tableEntryConj tNos nNos c i conjs.length) conjs

/-- Spec-side description for claim C5 (amended): the per-conjunct code,
keyed on the index `firstPos` of the rule's first positive conjunct with
a non-empty symbol sequence: that conjunct records `start`/`end`; every
other positive non-empty conjunct is reset to `start` and checked
against `end`; negative conjuncts are attempted from `start` and fail
the rule on success at `end`, the rule's final conjunct additionally
restoring `pos = end` when negative. -/
def specConjCode (tNos nNos : String → Nat) (firstPos ruleSize : Nat)
    (conj : Conjunct) (conjNo : Nat) : String :=
  let seq := symbolSequence tNos nNos conj.symbols
  if conj.pos = true ∧ seq ≠ "" then
    let base := "        if (!(" ++ seq ++ "))\n            return false;\n"
    if conjNo = firstPos then
      "        start = pos;\n" ++ base ++ "        end = pos;\n"
    else
      "\n        pos = start;" ++ base ++
        "\n        if (pos != end)\n            return false;\n"
  else if conj.pos = false then
    let isLast := if conjNo = ruleSize - 1 then "\n        pos = end;" else ""
    "\n        pos = start;\n        bool success = (" ++ seq ++
      ");\n        if (success && (pos == end))\n            return false;" ++
      isLast ++ "\n"
  else ""

/-- Spec-side body for claim C5 (amended). -/
def specRuleBody (tNos nNos : String → Nat) (conjs : List Conjunct) :
    String :=
  let firstPos := conjs.findIdx (fun c =>
    c.pos && decide (symbolSequence tNos nNos c.symbols ≠ ""))
  emitConjs (fun c i => specConjCode tNos nNos firstPos conjs.length c i)
    conjs

/-- Substring test used to state the C5 counterexample. -/
def strContains (hay needle : String) : Bool :=
  hay.toList.tails.any (fun t => needle.toList.isPrefixOf t)

--------------------------------
-- Token-level BBNF parser (C6)
--------------------------------

/-- Token kinds (`TOKEN_TYPE` in `parsebbnf.cpp`; `input_parser.cpp`'s
`LITERAL` and `EOF_CHAR` fill the same roles as `STR_LIT`/`EOF_TOK`). -/
inductive TokType where
  | NON_TERM
  | DERIVE
  | DISJ
  | CONJ
  | NEG
  | SC
  | STR_LIT
  | EPSILON
  | EOF_TOK
  | INVALID
deriving DecidableEq, Repr

/-- A token: kind and lexeme.  Line/column positions are carried only
for diagnostics in the source and are omitted here. -/
structure Token where
  type : TokType
  lexeme : String
deriving DecidableEq, Repr

/-- `parseSymbol`'s match: a NON_TERM, STR_LIT or EPSILON token becomes
a symbol; anything else is a fatal parse error (`none`).  The source
also inserts terminal lexemes into the global alphabet; the alphabet
accumulation is not needed by the claims settled here and is omitted. -/
def symbOfToken (t : Token) : Option Symb :=
  match t.type with
  | .NON_TERM => some ⟨.nt, t.lexeme⟩
  | .STR_LIT => some ⟨.lit, t.lexeme⟩
  | .EPSILON => some ⟨.eps, t.lexeme⟩
  | _ => none

/-- The conjunct loop's stopping condition: the current token is `&`,
`|` or `;`. -/
def isStopTok (t : Token) : Bool :=
  t.type == TokType.CONJ || t.type == TokType.DISJ || t.type == TokType.SC

/-- The symbol loop of `parseConj` (both variants): parse symbols until
the current token is an ampersand, pipe or semicolon.  `CurTok` always
exists in the source (end of input is an EOF token); an empty token
list models a missing token and fails like the `parseError` path. -/
def parseConjSymbols : List Token → Option (List Symb × List Token)
  | [] => none
  | t :: rest =>
    match symbOfToken t with
    | none => none
    | some s =>
      match rest with
      | [] => none
      | t' :: _ =>
        if isStopTok t' then some ([s], rest)
        else
          match parseConjSymbols rest with
          | some (ss, r) => some (s :: ss, r)
          | none => none

/-- The optional leading `~` of a conjunct: `match(NEG)` consumes the
token and makes the conjunct negative. -/
def stripNeg (ts : List Token) : Bool × List Token :=
  match ts with
  | t :: r => if t.type = TokType.NEG then (false, r) else (true, ts)
  | [] => (true, ts)

/-- `parseConj` as in `parsebbnf.cpp` (lines 259-281) and `main.cpp`:
optional `~`, then the symbol loop; if more than one symbol was parsed,
all EPSILON symbols are erased from the list. -/
def parseConjPB (ts : List Token) : Option (Conjunct × List Token) :=
  match parseConjSymbols (stripNeg ts).2 with
  | some (symbols, rest) =>
    some (⟨(stripNeg ts).1,
      if symbols.length > 1 then
        symbols.filter (fun s => s.kind != SymbKind.eps)
      else symbols⟩, rest)
  | none => none

/-- `parseConj` as in `bbnf_parser.cpp` (lines 146-158): identical
except that no epsilon removal is performed. -/
def parseConjBP (ts : List Token) : Option (Conjunct × List Token) :=
  match parseConjSymbols (stripNeg ts).2 with
  | some (symbols, rest) => some (⟨(stripNeg ts).1, symbols⟩, rest)
  | none => none

/-- `parseRule`: conjuncts separated by `&`.  `fuel` bounds the loop
(the C++ loop terminates because every conjunct consumes at least one
token); the empty-token case after a conjunct is unreachable because the
symbol loop always leaves its stopping token in place. -/
def parseRulePB : Nat → List Token → Option (RuleT × List Token)
  | 0, _ => none
  | fuel + 1, ts =>
    match parseConjPB ts with
    | some (c, rest) =>
      match rest with
      | t :: r =>
        if t.type = TokType.CONJ then
          match parseRulePB fuel r with
          | some (cs, rest') => some (c :: cs, rest')
          | none => none
        else some ([c], rest)
      | [] => none
    | none => none

/-- `parseDisj`: rules separated by `|`, terminated by `;` (anything
else is a fatal parse error). -/
def parseDisjPB : Nat → List Token → Option (DisjT × List Token)
  | 0, _ => none
  | fuel + 1, ts =>
    match parseRulePB fuel ts with
    | some (r, rest) =>
      match rest with
      | t :: r' =>
        if t.type = TokType.DISJ then
          match parseDisjPB fuel r' with
          | some (rs, rest') => some (r :: rs, rest')
          | none => none
        else if t.type = TokType.SC then some ([r], r')
        else none
      | [] => none
    | none => none

/-- `disjList[nt] = disj` on the `std::map`: replace an existing binding
or append a new one. -/
def insertGrammar (g : GrammarT) (nt : String) (d : DisjT) : GrammarT :=
  match g with
  | [] => [(nt, d)]
  | (k, v) :: rest =>
    if k = nt then (nt, d) :: rest else (k, v) :: insertGrammar rest nt d

/-- The `parseGrammar` loop: read `NON_TERM ->` then a disjunction,
insert it into the map, and stop when the next token is EOF. -/
def parseGrammarLoop : Nat → List Token → GrammarT → Option GrammarT
  | 0, _, _ => none
  | fuel + 1, ts, acc =>
    match ts with
    | t :: r =>
      if t.type = TokType.NON_TERM then
        match r with
        | t2 :: r2 =>
          if t2.type = TokType.DERIVE then
            match parseDisjPB fuel r2 with
            | some (d, rest) =>
              let acc' := insertGrammar acc t.lexeme d
              match rest with
              | t3 :: _ =>
                if t3.type = TokType.EOF_TOK then some acc'
                else parseGrammarLoop fuel rest acc'
              | [] => none
            | none => none
          else none
        | [] => none
      else none
    | [] => none

/-- `parseGrammar` for the `parsebbnf.cpp` variant: run the loop on an
empty map, with fuel bounded by the token count. -/
def parseGrammarPB (ts : List Token) : Option GrammarT :=
  parseGrammarLoop ts.length ts []

--------------------------------
-- Character-level lexer (C8)
--------------------------------

/-- C `isspace` on the ASCII whitespace characters. -/
def isSpaceC (c : Char) : Bool :=
  c = ' ' || c = '\t' || c = '\n' || c = '\r' ||
    c = Char.ofNat 11 || c = Char.ofNat 12

/-- C `isalnum(c) || c == '_'` (ASCII). -/
def isAlnumUnd (c : Char) : Bool :=
  c.isAlpha || c.isDigit || c = '_'

/-- The string-literal loop of `getToken` (`parsebbnf.cpp` 68-79,
`input_parser.cpp` 50-61): read characters up to the closing quote; on a
backslash, peek at the next character — if it is a quote, consume both
and keep a single quote, otherwise keep the backslash and leave the next
character unconsumed.  Running out of characters before the closing
quote models the C++ divergence on end-of-file as `none`. -/
def lexLiteral : List Char → Option (List Char × List Char)
  | [] => none
  | [c] => if c = '"' then some ([], []) else none
  | c :: c2 :: rest2 =>
    if c = '"' then some ([], c2 :: rest2)
    else if c = '\\' then
      if c2 = '"' then
        match lexLiteral rest2 with
        | some (s, r) => some ('"' :: s, r)
        | none => none
      else
        match lexLiteral (c2 :: rest2) with
        | some (s, r) => some ('\\' :: s, r)
        | none => none
    else
      match lexLiteral (c2 :: rest2) with
      | some (s, r) => some (c :: s, r)
      | none => none

/-- `getToken` of `parsebbnf.cpp` (lines 50-132; identical in
`main.cpp`): skip whitespace; a quoted literal yields EPSILON when its
unescaped body is empty and STR_LIT otherwise; an identifier yields
EPSILON with empty lexeme when it is `epsilon` and NON_TERM otherwise;
`->` yields DERIVE, a lone `-` an INVALID token; `| & ~ ;` yield their
tokens, end of input yields EOF, and any other character an INVALID
token.  Line/column counting is omitted (diagnostics only). -/
def getTokenPB (cs : List Char) : Option (Token × List Char) :=
  match cs.dropWhile isSpaceC with
  | [] => some (⟨.EOF_TOK, "EOF"⟩, [])
  | c :: rest =>
    if c = '"' then
      match lexLiteral rest with
      | some (s, r) =>
        if String.mk s = "" then some (⟨.EPSILON, String.mk s⟩, r)
        else some (⟨.STR_LIT, String.mk s⟩, r)
      | none => none
    else if isAlnumUnd c then
      if String.mk ((c :: rest).takeWhile isAlnumUnd) = "epsilon" then
        some (⟨.EPSILON, ""⟩, (c :: rest).dropWhile isAlnumUnd)
      else
        some (⟨.NON_TERM, String.mk ((c :: rest).takeWhile isAlnumUnd)⟩,
          (c :: rest).dropWhile isAlnumUnd)
    else if c = '-' then
      match rest with
      | c2 :: r2 =>
        if c2 = '>' then some (⟨.DERIVE, "->"⟩, r2)
        else some (⟨.INVALID, "-"⟩, rest)
      | [] => some (⟨.INVALID, "-"⟩, rest)
    else if c = '|' then some (⟨.DISJ, "|"⟩, rest)
    else if c = '&' then some (⟨.CONJ, "&"⟩, rest)
    else if c = '~' then some (⟨.NEG, "~"⟩, rest)
    else if c = ';' then some (⟨.SC, ";"⟩, rest)
    else some (⟨.INVALID, String.mk [c]⟩, rest)

/-- `getToken` of `input_parser.cpp` (lines 32-114): same structure, but
an empty literal is a fatal lexer error, the identifier `epsilon` keeps
its lexeme `"epsilon"`, a lone `-` is a fatal lexer error, and an
unrecognised character is a fatal lexer error (all modelled `none`).
Its `LITERAL` token kind corresponds to `STR_LIT` here. -/
def getTokenIP (cs : List Char) : Option (Token × List Char) :=
  match cs.dropWhile isSpaceC with
  | [] => some (⟨.EOF_TOK, "EOF"⟩, [])
  | c :: rest =>
    if c = '"' then
      match lexLiteral rest with
      | some (s, r) =>
        if String.mk s = "" then none
        else some (⟨.STR_LIT, String.mk s⟩, r)
      | none => none
    else if isAlnumUnd c then
      if String.mk ((c :: rest).takeWhile isAlnumUnd) = "epsilon" then
        some (⟨.EPSILON, String.mk ((c :: rest).takeWhile isAlnumUnd)⟩,
          (c :: rest).dropWhile isAlnumUnd)
      else
        some (⟨.NON_TERM, String.mk ((c :: rest).takeWhile isAlnumUnd)⟩,
          (c :: rest).dropWhile isAlnumUnd)
    else if c = '-' then
      match rest with
      | c2 :: r2 =>
        if c2 = '>' then some (⟨.DERIVE, "->"⟩, r2)
        else none
      | [] => none
    else if c = '|' then some (⟨.DISJ, "|"⟩, rest)
    else if c = '&' then some (⟨.CONJ, "&"⟩, rest)
    else if c = '~' then some (⟨.NEG, "~"⟩, rest)
    else if c = ';' then some (⟨.SC, ";"⟩, rest)
    else none

/-- Spec-side description for claim C8: a well-delimited literal body —
no bare quote, every quote preceded by a backslash, no trailing lone
backslash (which would swallow the closing quote). -/
def wfLit : List Char → Bool
  | [] => true
  | [c] => if c = '"' then false else if c = '\\' then false else true
  | c :: c2 :: r2 =>
    if c = '"' then false
    else if c = '\\' then
      if c2 = '"' then wfLit r2 else wfLit (c2 :: r2)
    else wfLit (c2 :: r2)

/-- Spec-side description for claim C8: the literal's contents with each
`\"` escape sequence replaced by a single `"` character. -/
def unescape : List Char → List Char
  | [] => []
  | [c] => [c]
  | c :: c2 :: r2 =>
    if c = '\\' then
      if c2 = '"' then '"' :: unescape r2 else c :: unescape (c2 :: r2)
    else c :: unescape (c2 :: r2)

end BGParse

--------------------------------
-- Theorems: C7
--------------------------------

namespace BGParse

theorem ntsOfSymbols_mem (symbols : List Symb) (x : String) :
    x ∈ ntsOfSymbols symbols ↔ ∃ s ∈ symbols, s.kind = .nt ∧ s.str = x := by
  rw [ntsOfSymbols]
  suffices h : ∀ (acc : Finset String),
      x ∈ symbols.foldl
        (fun acc s => if s.kind = .nt then insert s.str acc else acc) acc ↔
      x ∈ acc ∨ ∃ s ∈ symbols, s.kind = .nt ∧ s.str = x by
    simpa using h ∅
  induction symbols with
  | nil => simp
  | cons s rest ih =>
    intro acc
    simp only [List.foldl_cons, ih]
    by_cases hk : s.kind = .nt
    · rw [if_pos hk]
      simp only [Finset.mem_insert, List.mem_cons]
      constructor
      · rintro ((h | h) | ⟨t, ht, h1, h2⟩)
        · exact Or.inr ⟨s, Or.inl rfl, hk, h.symm⟩
        · exact Or.inl h
        · exact Or.inr ⟨t, Or.inr ht, h1, h2⟩
      · rintro (h | ⟨t, (ht | ht), h1, h2⟩)
        · exact Or.inl (Or.inr h)
        · exact Or.inl (Or.inl (by rw [← h2, ht]))
        · exact Or.inr ⟨t, ht, h1, h2⟩
    · rw [if_neg hk]
      simp only [List.mem_cons]
      constructor
      · rintro (h | ⟨t, ht, h1, h2⟩)
        · exact Or.inl h
        · exact Or.inr ⟨t, Or.inr ht, h1, h2⟩
      · rintro (h | ⟨t, (ht | ht), h1, h2⟩)
        · exact Or.inl h
        · exact absurd (ht ▸ h1) hk
        · exact Or.inr ⟨t, ht, h1, h2⟩

theorem ruleReferences_mem (conjRefs : Conjunct → Finset String)
    (r : RuleT) (x : String) :
    x ∈ ruleReferences conjRefs r ↔ ∃ c ∈ r, x ∈ conjRefs c := by
  rw [ruleReferences]
  suffices h : ∀ (acc : Finset String),
      x ∈ r.foldl (fun acc c => acc ∪ conjRefs c) acc ↔
      x ∈ acc ∨ ∃ c ∈ r, x ∈ conjRefs c by
    simpa using h ∅
  induction r with
  | nil => simp
  | cons c rest ih =>
    intro acc
    simp only [List.foldl_cons, ih, Finset.mem_union, List.mem_cons]
    constructor
    · rintro ((h | h) | ⟨t, ht, h1⟩)
      · exact Or.inl h
      · exact Or.inr ⟨c, Or.inl rfl, h⟩
      · exact Or.inr ⟨t, Or.inr ht, h1⟩
    · rintro (h | ⟨t, (ht | ht), h1⟩)
      · exact Or.inl (Or.inl h)
      · exact Or.inl (Or.inr (ht ▸ h1))
      · exact Or.inr ⟨t, ht, h1⟩

theorem disjReferences_mem (conjRefs : Conjunct → Finset String)
    (d : DisjT) (x : String) :
    x ∈ disjReferences conjRefs d ↔
      ∃ r ∈ d, ∃ c ∈ r, x ∈ conjRefs c := by
  rw [disjReferences]
  suffices h : ∀ (acc : Finset String),
      x ∈ d.foldl (fun acc r => acc ∪ ruleReferences conjRefs r) acc ↔
      x ∈ acc ∨ ∃ r ∈ d, ∃ c ∈ r, x ∈ conjRefs c by
    simpa using h ∅
  induction d with
  | nil => simp
  | cons r rest ih =>
    intro acc
    simp only [List.foldl_cons, ih, Finset.mem_union, List.mem_cons]
    constructor
    · rintro ((h | h) | ⟨t, ht, c, hc, h1⟩)
      · exact Or.inl h
      · exact Or.inr ⟨r, Or.inl rfl, (ruleReferences_mem conjRefs r x).mp h⟩
      · exact Or.inr ⟨t, Or.inr ht, c, hc, h1⟩
    · rintro (h | ⟨t, (ht | ht), c, hc, h1⟩)
      · exact Or.inl (Or.inl h)
      · exact Or.inl (Or.inr
          ((ruleReferences_mem conjRefs r x).mpr ⟨c, ht ▸ hc, h1⟩))
      · exact Or.inr ⟨t, ht, c, hc, h1⟩

end BGParse

/-- C7 counterexample: for the disjunction `N -> ~M`, the `parsebbnf.cpp`
reference analysis (which feeds its topological sort) returns the empty
set, although the non-terminal `M` appears in the disjunction (inside a
negative conjunct) — so `refs[N]` is not the union of all non-terminal
names appearing in the disjunction. -/
theorem C7_counterexample :
    BGParse.ntNamesOfDisjPos [[⟨false, [⟨.nt, "M"⟩]⟩]] ≠
      BGParse.ntNamesOfDisj [[⟨false, [⟨.nt, "M"⟩]⟩]] := by
  decide

/-- C7 (amended): in the `main.cpp` variant, `refs[N]` is exactly the set
of non-terminal names appearing anywhere in N's disjunction, negative
conjuncts included; in the `parsebbnf.cpp` variant, negative conjuncts
contribute nothing, so `refs[N]` is the set of non-terminal names
appearing in the positive conjuncts only. -/
theorem C7_refs_characterisation (d : BGParse.DisjT) (x : String) :
    (x ∈ BGParse.disjReferences BGParse.conjReferencesMain d ↔
      ∃ r ∈ d, ∃ c ∈ r, ∃ s ∈ c.symbols, s.kind = .nt ∧ s.str = x) ∧
    (x ∈ BGParse.disjReferences BGParse.conjReferencesPB d ↔
      ∃ r ∈ d, ∃ c ∈ r, c.pos = true ∧
        ∃ s ∈ c.symbols, s.kind = .nt ∧ s.str = x) := by
  constructor
  · rw [BGParse.disjReferences_mem]
    constructor
    · rintro ⟨r, hr, c, hc, h⟩
      exact ⟨r, hr, c, hc,
        (BGParse.ntsOfSymbols_mem c.symbols x).mp h⟩
    · rintro ⟨r, hr, c, hc, h⟩
      exact ⟨r, hr, c, hc,
        (BGParse.ntsOfSymbols_mem c.symbols x).mpr h⟩
  · rw [BGParse.disjReferences_mem]
    constructor
    · rintro ⟨r, hr, c, hc, h⟩
      rw [BGParse.conjReferencesPB] at h
      by_cases hp : c.pos
      · rw [if_pos hp] at h
        exact ⟨r, hr, c, hc, hp,
          (BGParse.ntsOfSymbols_mem c.symbols x).mp h⟩
      · rw [if_neg hp] at h
        simp at h
    · rintro ⟨r, hr, c, hc, hp, h⟩
      refine ⟨r, hr, c, hc, ?_⟩
      rw [BGParse.conjReferencesPB, if_pos hp]
      exact (BGParse.ntsOfSymbols_mem c.symbols x).mpr h

--------------------------------
-- Theorems: C2, C3
--------------------------------

namespace BGParse

theorem conjFirstAux_eq_spec (firstMap : String → Finset String)
    (syms : List Symb) (acc : Finset String) :
    conjFirstAux firstMap syms acc =
      (acc ∪ (conjFirstSpec firstMap syms).1,
        (conjFirstSpec firstMap syms).2) := by
  induction syms generalizing acc with
  | nil => simp [conjFirstAux, conjFirstSpec]
  | cons s rest ih =>
    obtain ⟨k, str⟩ := s
    cases k with
    | eps =>
      show (insert "" acc, true) = (acc ∪ {""}, true)
      rw [Finset.insert_eq, Finset.union_comm]
    | lit =>
      show (insert str acc, false) = (acc ∪ {str}, false)
      rw [Finset.insert_eq, Finset.union_comm]
    | nt =>
      show (if "" ∈ firstMap str then
            conjFirstAux firstMap rest (acc ∪ firstMap str)
          else (acc ∪ firstMap str, false)) = _
      by_cases h : "" ∈ firstMap str
      · simp only [conjFirstSpec, h, if_true, ih, Finset.union_assoc]
      · simp only [conjFirstSpec, h, if_false]

theorem mem_ruleFirstSet (alphabet : Finset String)
    (firstMap : String → Finset String) (r : RuleT) (t : String) :
    t ∈ ruleFirstSet alphabet firstMap r ↔
      t ∈ alphabet ∧ ∀ c ∈ r, t ∈ (conjFirstSet alphabet firstMap c).1 := by
  rw [ruleFirstSet]
  suffices h : ∀ (init : Finset String),
      t ∈ r.foldl (fun fs c =>
          fs.filter (fun t => t ∈ (conjFirstSet alphabet firstMap c).1)) init ↔
      t ∈ init ∧ ∀ c ∈ r, t ∈ (conjFirstSet alphabet firstMap c).1 by
    exact h alphabet
  induction r with
  | nil => simp
  | cons c rest ih =>
    intro init
    simp only [List.foldl_cons, ih, Finset.mem_filter, List.mem_cons]
    constructor
    · rintro ⟨⟨h1, h2⟩, h3⟩
      refine ⟨h1, fun c' hc' => ?_⟩
      rcases hc' with h | h
      · exact h ▸ h2
      · exact h3 c' h
    · rintro ⟨h1, h2⟩
      exact ⟨⟨h1, h2 c (Or.inl rfl)⟩, fun c' hc' => h2 c' (Or.inr hc')⟩

end BGParse

/-- C2: for every rule, `first(rule)` is the intersection over the rule's
conjuncts of the conjuncts' FIRST sets, restricted to the alphabet, where
a negative conjunct's FIRST set is the whole alphabet — consequently
dropping the negative conjuncts does not change the rule's FIRST set. -/
theorem C2_rule_first_intersection (alphabet : Finset String)
    (firstMap : String → Finset String) (r : BGParse.RuleT) :
    (∀ t, t ∈ BGParse.ruleFirstSet alphabet firstMap r ↔
        t ∈ alphabet ∧
          ∀ c ∈ r, t ∈ (BGParse.conjFirstSet alphabet firstMap c).1) ∧
    BGParse.ruleFirstSet alphabet firstMap r =
      BGParse.ruleFirstSet alphabet firstMap (r.filter (·.pos)) := by
  refine ⟨fun t => BGParse.mem_ruleFirstSet alphabet firstMap r t, ?_⟩
  ext t
  rw [BGParse.mem_ruleFirstSet, BGParse.mem_ruleFirstSet]
  constructor
  · rintro ⟨h1, h2⟩
    exact ⟨h1, fun c hc => h2 c (List.mem_of_mem_filter hc)⟩
  · rintro ⟨h1, h2⟩
    refine ⟨h1, fun c hc => ?_⟩
    by_cases hp : c.pos
    · exact h2 c (List.mem_filter.mpr ⟨hc, by simp [hp]⟩)
    · rw [BGParse.conjFirstSet, if_neg (by simpa using hp)]
      exact h1

/-- C3: for every positive conjunct, the FIRST scan over its symbols
matches the spec's left-to-right description: EPSILON contributes `{""}`
and stops; a terminal contributes itself and stops non-nullable; a
non-terminal `M` contributes `first[M]` and stops non-nullable iff
`"" ∉ first[M]`; if the scan reaches the end, the nullable flag stays
`true` and the accumulated set is the result. -/
theorem C3_conj_first_scan (alphabet : Finset String)
    (firstMap : String → Finset String) (syms : List BGParse.Symb) :
    BGParse.conjFirstSet alphabet firstMap ⟨true, syms⟩ =
      BGParse.conjFirstSpec firstMap syms := by
  rw [BGParse.conjFirstSet, if_pos rfl, BGParse.conjFirstAux_eq_spec]
  simp

--------------------------------
-- Theorems: C4
--------------------------------

namespace BGParse

theorem fupd_apply_same {α : Type} (m : String → α) (k : String) (v : α) :
    fupd m k v k = v := by simp [fupd]

theorem fupd_apply_other {α : Type} (m : String → α) (k x : String) (v : α)
    (h : x ≠ k) : fupd m k v x = m x := by simp [fupd, h]

theorem fupd_fupd_same {α : Type} (m : String → α) (k : String) (v w : α) :
    fupd (fupd m k v) k w = fupd m k w := by
  funext x
  by_cases h : x = k <;> simp [fupd, h]

theorem fupd_self {α : Type} (m : String → α) (k : String) :
    fupd m k (m k) = m := by
  funext x
  by_cases h : x = k <;> simp [fupd, h]

theorem innerScan_eq (firstMap : String → Finset String) (cur : String)
    (syms : List Symb) (follow : String → Finset String) :
    innerScan firstMap cur syms follow =
      (fupd follow cur (follow cur ∪ (followContribution firstMap syms).1),
        !(followContribution firstMap syms).2) := by
  induction syms generalizing follow with
  | nil =>
    show (follow, false) = _
    rw [followContribution]
    simp [fupd_self]
  | cons s rest ih =>
    obtain ⟨k, str⟩ := s
    cases k with
    | lit =>
      show (fupd follow cur (insert str (follow cur)), true) = _
      rw [followContribution]
      simp only []
      rw [Finset.insert_eq, Finset.union_comm]
      exact rfl
    | eps =>
      show innerScan firstMap cur rest follow = _
      rw [followContribution]
      exact ih follow
    | nt =>
      show (if "" ∈ firstMap str then
            innerScan firstMap cur rest
              (fupd follow cur (follow cur ∪ firstMap str))
          else (fupd follow cur (follow cur ∪ firstMap str), true)) = _
      rw [followContribution]
      by_cases h : "" ∈ firstMap str
      · simp only [h, if_true, ih]
        rw [fupd_fupd_same, fupd_apply_same, Finset.union_assoc]
      · simp only [h, if_false]
        exact rfl

theorem occProcess_eq_spec (firstMap : String → Finset String)
    (nt cur : String) (rest : List Symb)
    (follow : String → Finset String) :
    occProcess firstMap nt cur rest follow =
      specOccProcess firstMap nt cur rest follow := by
  rw [occProcess, specOccProcess, innerScan_eq]
  dsimp only
  by_cases hoff : (followContribution firstMap rest).2 = true
  · by_cases hne : cur = nt
    · subst hne
      rw [if_neg (by simp), if_neg (by simp)]
      rw [Finset.union_empty]
    · have h1 : (!(followContribution firstMap rest).2) = false := by
        simp [hoff]
      rw [if_pos ⟨h1, Ne.symm hne⟩, if_pos ⟨hoff, hne⟩]
      rw [fupd_fupd_same, fupd_apply_same,
        fupd_apply_other _ _ _ _ (Ne.symm hne), Finset.union_assoc]
  · have hoff' : (followContribution firstMap rest).2 = false := by
      simpa using hoff
    have h1 : (!(followContribution firstMap rest).2) = true := by
      simp [hoff']
    rw [if_neg (by simp [h1]), if_neg (by simp [hoff'])]
    rw [Finset.union_empty]

end BGParse

/-- C4: (a) for every conjunct of a rule of non-terminal N, the FOLLOW
update over the conjunct processes each non-terminal occurrence C by
scanning the symbols to its right — adding each terminal and each
non-terminal's FIRST set to follow[C], stopping at the first non-nullable
symbol, and adding all of follow[N] when the scan runs off the end and
C ≠ N (negative conjuncts are processed identically); (b) the FOLLOW
phase processes the reversed topological order, first resetting the
start symbol's FOLLOW set to `{""}`. -/
theorem C4_follow_construction (firstMap : String → Finset String) :
    (∀ (nt : String) (syms : List BGParse.Symb)
        (follow : String → Finset String),
      BGParse.conjFollowAdd firstMap nt syms follow =
        BGParse.specConjFollowAdd firstMap nt syms follow) ∧
    (∀ (grammar : BGParse.GrammarT) (ntOrder : List String) (s : String)
        (rest : List String) (follow : String → Finset String),
      ntOrder.reverse = s :: rest →
        BGParse.followPhase firstMap grammar ntOrder follow =
          BGParse.followPhaseAux firstMap grammar (s :: rest)
            (BGParse.fupd follow s {""}) ∧
        BGParse.fupd follow s {""} s = {""}) := by
  constructor
  · intro nt syms
    induction syms with
    | nil => intro follow; rfl
    | cons s rest ih =>
      intro follow
      rw [BGParse.conjFollowAdd, BGParse.specConjFollowAdd]
      rw [BGParse.occProcess_eq_spec]
      exact ih _
  · intro grammar ntOrder s rest follow h
    constructor
    · rw [BGParse.followPhase, h]
    · exact BGParse.fupd_apply_same follow s _

/-- C4 witness: instantiation of the hypothesis-guarded part at the
order `["B", "S"]`, whose reversal starts with the start symbol `"S"`. -/
theorem C4_follow_construction_witness :
    BGParse.followPhase (fun _ => ∅) [] ["B", "S"] (fun _ => ∅) =
      BGParse.followPhaseAux (fun _ => ∅) [] ["S", "B"]
        (BGParse.fupd (fun _ => ∅) "S" {""}) ∧
    BGParse.fupd (fun _ => (∅ : Finset String)) "S" {""} "S" = {""} :=
  (C4_follow_construction (fun _ => ∅)).2 [] ["B", "S"] "S" ["B"]
    (fun _ => ∅) rfl

--------------------------------
-- Theorems: C1, C10
--------------------------------

namespace BGParse

theorem ruleUpdateTable_foldl (follow : String → Finset String)
    (nt : String) (info : RuleInfo) (l : List String) (n t : String) :
    ∀ (table : String × String → Option (List Conjunct)),
    (l.foldl (fun tbl s =>
      if ruleQualifies follow nt s info then
        (fun k => if k = (nt, s) then some info.conjs else tbl k)
      else tbl) table) (n, t) =
    if n = nt ∧ t ∈ l ∧ ruleQualifies follow nt t info then some info.conjs
    else table (n, t) := by
  induction l with
  | nil =>
    intro table
    simp
  | cons s l' ih =>
    intro table
    rw [List.foldl_cons, ih]
    by_cases hA : n = nt ∧ t ∈ l' ∧ ruleQualifies follow nt t info
    · rw [if_pos hA,
        if_pos ⟨hA.1, List.mem_cons_of_mem s hA.2.1, hA.2.2⟩]
    · rw [if_neg hA]
      by_cases hq : ruleQualifies follow nt s info
      · rw [if_pos hq]
        by_cases hk : (n, t) = (nt, s)
        · obtain ⟨hn, hts⟩ := Prod.mk.injEq .. ▸ hk
          rw [if_pos hk, if_pos ⟨hn, by rw [hts]; exact List.mem_cons_self s l',
            by rw [hts]; exact hq⟩]
        · rw [if_neg hk, if_neg ?_]
          rintro ⟨hn, hmem, hqt⟩
          rcases List.mem_cons.mp hmem with h | h
          · exact hk (by rw [hn, h])
          · exact hA ⟨hn, h, hqt⟩
      · rw [if_neg hq, if_neg ?_]
        rintro ⟨hn, hmem, hqt⟩
        rcases List.mem_cons.mp hmem with h | h
        · exact hq (h ▸ hqt)
        · exact hA ⟨hn, h, hqt⟩

theorem ruleUpdateTable_lookup (alphabet : List String)
    (follow : String → Finset String) (nt : String) (info : RuleInfo)
    (n t : String) (table : String × String → Option (List Conjunct)) :
    ruleUpdateTable alphabet follow nt info table (n, t) =
    if n = nt ∧ t ∈ alphabet ∧ ruleQualifies follow nt t info then
      some info.conjs
    else table (n, t) := by
  rw [ruleUpdateTable, ruleUpdateTable_foldl]

theorem disjUpdateTable_lookup (alphabet : List String)
    (follow : String → Finset String) (nt : String)
    (infos : List RuleInfo) (n t : String) :
    ∀ (table : String × String → Option (List Conjunct)),
    disjUpdateTable alphabet follow nt infos table (n, t) =
    if n = nt ∧ t ∈ alphabet then
      match infos.reverse.find?
          (fun i => decide (ruleQualifies follow nt t i)) with
      | some i => some i.conjs
      | none => table (n, t)
    else table (n, t) := by
  induction infos with
  | nil =>
    intro table
    show table (n, t) = _
    rw [List.reverse_nil, List.find?_nil, ite_self]
  | cons info infos' ih =>
    intro table
    show disjUpdateTable alphabet follow nt infos'
        (ruleUpdateTable alphabet follow nt info table) (n, t) = _
    rw [ih, List.reverse_cons, List.find?_append]
    by_cases hc : n = nt ∧ t ∈ alphabet
    · rw [if_pos hc, if_pos hc]
      cases hfind : infos'.reverse.find?
          (fun i => decide (ruleQualifies follow nt t i)) with
      | some i => rfl
      | none =>
        show ruleUpdateTable alphabet follow nt info table (n, t) = _
        rw [ruleUpdateTable_lookup, List.find?_singleton]
        by_cases hq : ruleQualifies follow nt t info
        · rw [if_pos ⟨hc.1, hc.2, hq⟩, if_pos (by simp [hq])]
          rfl
        · rw [if_neg (fun h => hq h.2.2), if_neg (by simp [hq])]
          rfl
    · rw [if_neg hc, if_neg hc, ruleUpdateTable_lookup,
        if_neg (fun h => hc ⟨h.1, h.2.1⟩)]

theorem tablePhase_not_mem (alphabet : List String)
    (follow : String → Finset String) (cache : String → List RuleInfo)
    (grammar : GrammarT) (n t : String)
    (h : n ∉ grammar.map Prod.fst) :
    ∀ (table : String × String → Option (List Conjunct)),
    tablePhase alphabet follow cache grammar table (n, t) = table (n, t) := by
  induction grammar with
  | nil => intro table; rfl
  | cons e rest ih =>
    intro table
    have h1 : n ≠ e.1 := fun hn => h (by simp [hn])
    have h2 : n ∉ rest.map Prod.fst := fun hn => h (by simp [hn])
    show tablePhase alphabet follow cache rest
        (disjUpdateTable alphabet follow e.1 (cache e.1) table) (n, t) = _
    rw [ih h2, disjUpdateTable_lookup, if_neg (fun hc => h1 hc.1)]

theorem tablePhase_mem_lookup (alphabet : List String)
    (follow : String → Finset String) (cache : String → List RuleInfo)
    (grammar : GrammarT) (n t : String)
    (hnd : (grammar.map Prod.fst).Nodup)
    (hn : n ∈ grammar.map Prod.fst) (ht : t ∈ alphabet) :
    ∀ (table : String × String → Option (List Conjunct)),
    tablePhase alphabet follow cache grammar table (n, t) =
      match (cache n).reverse.find?
          (fun i => decide (ruleQualifies follow n t i)) with
      | some i => some i.conjs
      | none => table (n, t) := by
  induction grammar with
  | nil => exact absurd hn (by simp)
  | cons e rest ih =>
    intro table
    obtain ⟨hnotin, hndrest⟩ := List.nodup_cons.mp hnd
    show tablePhase alphabet follow cache rest
        (disjUpdateTable alphabet follow e.1 (cache e.1) table) (n, t) = _
    rcases List.mem_cons.mp hn with hcase | hcase
    · have hnot : n ∉ rest.map Prod.fst := hcase ▸ hnotin
      rw [tablePhase_not_mem alphabet follow cache rest n t hnot,
        disjUpdateTable_lookup, hcase, if_pos ⟨rfl, ht⟩]
    · have hne : n ≠ e.1 := fun h => hnotin (h ▸ hcase)
      rw [ih hndrest hcase, disjUpdateTable_lookup,
        if_neg (fun hc => hne hc.1)]

end BGParse

/-- C1: for a defined non-terminal `N` with disjunction `d`, rule caches
as left by the FIRST phase, and any terminal `t` of the alphabet, the
constructed table's entry `(N, t)` is present iff some rule `r` of `d`
satisfies `t ∈ first(r)` or (`r` is nullable and `t ∈ follow[N]`), and
it holds the conjunct list of the last such rule in disjunction order —
the later write overwrites the earlier with no conflict diagnostic
(`find?` over the reversed rule list picks exactly the last qualifying
rule, and returns `none`, i.e. no entry, when no rule qualifies). -/
theorem C1_parse_table_entry (alphabet : List String)
    (follow firstMap : String → Finset String)
    (cache : String → List BGParse.RuleInfo) (grammar : BGParse.GrammarT)
    (N : String) (d : BGParse.DisjT) (t : String)
    (hnd : (grammar.map Prod.fst).Nodup)
    (hmem : (N, d) ∈ grammar)
    (hcache : cache N = d.map (BGParse.analyzeRule alphabet.toFinset firstMap))
    (ht : t ∈ alphabet) :
    BGParse.tablePhase alphabet follow cache grammar (fun _ => none) (N, t) =
      d.reverse.find? (fun r => decide
        (BGParse.ruleQualifies follow N t
          (BGParse.analyzeRule alphabet.toFinset firstMap r))) := by
  have hn : N ∈ grammar.map Prod.fst := by
    simpa using List.mem_map_of_mem Prod.fst hmem
  rw [BGParse.tablePhase_mem_lookup alphabet follow cache grammar N t hnd hn ht]
  rw [hcache, ← List.map_reverse, List.find?_map]
  cases hf : d.reverse.find? (fun r => decide
      (BGParse.ruleQualifies follow N t
        (BGParse.analyzeRule alphabet.toFinset firstMap r))) with
  | some r =>
    show _ = some r
    have : (fun i => decide (BGParse.ruleQualifies follow N t i)) ∘
        BGParse.analyzeRule alphabet.toFinset firstMap =
        fun r => decide (BGParse.ruleQualifies follow N t
          (BGParse.analyzeRule alphabet.toFinset firstMap r)) := rfl
    rw [this, hf]
    rfl
  | none =>
    have : (fun i => decide (BGParse.ruleQualifies follow N t i)) ∘
        BGParse.analyzeRule alphabet.toFinset firstMap =
        fun r => decide (BGParse.ruleQualifies follow N t
          (BGParse.analyzeRule alphabet.toFinset firstMap r)) := rfl
    rw [this, hf]
    rfl

/-- C1 witness: for the one-rule grammar `S -> "a"`, the table maps
`(S, "a")` to that rule. -/
theorem C1_parse_table_entry_witness :
    BGParse.tablePhase ["a"] (fun _ => ∅)
      (fun n => if n = "S" then
          [[BGParse.Conjunct.mk true [⟨.lit, "a"⟩]]].map
            (BGParse.analyzeRule (["a"].toFinset) (fun _ => ∅))
        else [])
      [("S", [[BGParse.Conjunct.mk true [⟨.lit, "a"⟩]]])]
      (fun _ => none) ("S", "a") =
    ([[BGParse.Conjunct.mk true [⟨.lit, "a"⟩]]] :
        List BGParse.RuleT).reverse.find? (fun r => decide
      (BGParse.ruleQualifies (fun _ => ∅) "S" "a"
        (BGParse.analyzeRule (["a"].toFinset) (fun _ => ∅) r))) :=
  C1_parse_table_entry ["a"] (fun _ => ∅) (fun _ => ∅) _ _ "S"
    [[BGParse.Conjunct.mk true [⟨.lit, "a"⟩]]] "a"
    (by decide) (by decide) (by simp) (by decide)

/-- C10: a negative conjunct's FIRST computation returns the whole
alphabet without inspecting its symbols or clearing the nullable flag;
consequently a rule all of whose conjuncts are negative has every
conjunct flag true (so it is classified nullable), its cached FIRST set
is the whole alphabet, and its `updateTable` enters it into the parsing
table at `(nt, t)` for every alphabet terminal `t` in `follow[nt]`. -/
theorem C10_negative_conjuncts_nullable :
    (∀ (alphabet : Finset String) (firstMap : String → Finset String)
        (c : BGParse.Conjunct), c.pos = false →
      BGParse.conjFirstSet alphabet firstMap c = (alphabet, true)) ∧
    (∀ (alphabet : Finset String) (firstMap : String → Finset String)
        (r : BGParse.RuleT), (∀ c ∈ r, c.pos = false) →
      (BGParse.analyzeRule alphabet firstMap r).nullFlags.all id = true ∧
      (BGParse.analyzeRule alphabet firstMap r).firsts = alphabet) ∧
    (∀ (alphabet : List String) (follow firstMap : String → Finset String)
        (nt : String) (r : BGParse.RuleT)
        (table : String × String → Option (List BGParse.Conjunct))
        (t : String), (∀ c ∈ r, c.pos = false) →
      t ∈ alphabet → t ∈ follow nt →
      BGParse.ruleUpdateTable alphabet follow nt
        (BGParse.analyzeRule alphabet.toFinset firstMap r) table (nt, t) =
        some r) := by
  have hconj : ∀ (alphabet : Finset String)
      (firstMap : String → Finset String) (c : BGParse.Conjunct),
      c.pos = false →
      BGParse.conjFirstSet alphabet firstMap c = (alphabet, true) := by
    intro alphabet firstMap c hc
    rw [BGParse.conjFirstSet, hc]
    rfl
  have hrule : ∀ (alphabet : Finset String)
      (firstMap : String → Finset String) (r : BGParse.RuleT),
      (∀ c ∈ r, c.pos = false) →
      (BGParse.analyzeRule alphabet firstMap r).nullFlags.all id = true ∧
      (BGParse.analyzeRule alphabet firstMap r).firsts = alphabet := by
    intro alphabet firstMap r hneg
    constructor
    · show (r.map fun c =>
          (BGParse.conjFirstSet alphabet firstMap c).2).all id = true
      rw [List.all_eq_true]
      intro b hb
      obtain ⟨c, hc, hcb⟩ := List.mem_map.mp hb
      rw [← hcb, hconj alphabet firstMap c (hneg c hc)]
      rfl
    · show BGParse.ruleFirstSet alphabet firstMap r = alphabet
      ext t
      rw [BGParse.mem_ruleFirstSet]
      constructor
      · exact fun h => h.1
      · intro h
        refine ⟨h, fun c hc => ?_⟩
        rw [hconj alphabet firstMap c (hneg c hc)]
        exact h
  refine ⟨hconj, hrule, ?_⟩
  intro alphabet follow firstMap nt r table t hneg ht hfol
  rw [BGParse.ruleUpdateTable_lookup]
  rw [if_pos ⟨rfl, ht, Or.inl
    (by rw [(hrule alphabet.toFinset firstMap r hneg).2]
        exact List.mem_toFinset.mpr ht)⟩]
  rfl

/-- C10 witness: the all-negative rule `~"b"` of `S` is nullable, its
FIRST set is the whole alphabet, and it is entered at `(S, "a")` since
`"a" ∈ follow[S]`. -/
theorem C10_negative_conjuncts_nullable_witness :
    BGParse.conjFirstSet {"a"} (fun _ => ∅) ⟨false, [⟨.lit, "b"⟩]⟩ =
      ({"a"}, true) ∧
    (BGParse.analyzeRule {"a"} (fun _ => ∅)
        [⟨false, [⟨.lit, "b"⟩]⟩]).nullFlags.all id = true ∧
    BGParse.ruleUpdateTable ["a"] (fun _ => {"a"}) "S"
      (BGParse.analyzeRule (["a"].toFinset) (fun _ => ∅)
        [⟨false, [⟨.lit, "b"⟩]⟩])
      (fun _ => none) ("S", "a") = some [⟨false, [⟨.lit, "b"⟩]⟩] :=
  ⟨C10_negative_conjuncts_nullable.1 {"a"} (fun _ => ∅) _ rfl,
   (C10_negative_conjuncts_nullable.2.1 {"a"} (fun _ => ∅)
      [⟨false, [⟨.lit, "b"⟩]⟩] (by decide)).1,
   C10_negative_conjuncts_nullable.2.2 ["a"] (fun _ => {"a"}) (fun _ => ∅)
      "S" [⟨false, [⟨.lit, "b"⟩]⟩] (fun _ => none) "a"
      (by decide) (by decide) (by decide)⟩

--------------------------------
-- Theorems: C9
--------------------------------

namespace BGParse

theorem dfs_visited (refs : String → List String) :
    ∀ (fuel : Nat) (nt : String) (st : Finset String × List String),
      st.1 ⊆ (dfs refs fuel nt st).1 ∧ nt ∈ (dfs refs fuel nt st).1 := by
  intro fuel
  induction fuel with
  | zero =>
    intro nt st
    exact ⟨Finset.subset_insert nt st.1, Finset.mem_insert_self nt st.1⟩
  | succ fuel ih =>
    have hfold : ∀ (l : List String) (st : Finset String × List String),
        st.1 ⊆ (l.foldl
          (fun acc s => if s ∈ acc.1 then acc else dfs refs fuel s acc)
          st).1 := by
      intro l
      induction l with
      | nil => intro st; exact subset_refl _
      | cons s l' ihl =>
        intro st
        rw [List.foldl_cons]
        refine subset_trans ?_ (ihl _)
        by_cases h : s ∈ st.1
        · rw [if_pos h]
        · rw [if_neg h]
          exact (ih s st).1
    intro nt st
    have h1 : insert nt st.1 ⊆ (dfs refs (fuel + 1) nt st).1 :=
      hfold (refs nt) (insert nt st.1, st.2)
    exact ⟨subset_trans (Finset.subset_insert nt st.1) h1,
      h1 (Finset.mem_insert_self nt st.1)⟩

theorem topologicalSort_foldl_visited (refs : String → List String)
    (fuel : Nat) :
    ∀ (l : List String) (st : Finset String × List String),
      (∀ k ∈ l, k ∈ (l.foldl
        (fun st nt => if nt ∈ st.1 then st else dfs refs fuel nt st) st).1) ∧
      st.1 ⊆ (l.foldl
        (fun st nt => if nt ∈ st.1 then st else dfs refs fuel nt st) st).1 := by
  intro l
  induction l with
  | nil => intro st; exact ⟨by simp, subset_refl _⟩
  | cons nt l' ih =>
    intro st
    rw [List.foldl_cons]
    have hstep : st.1 ⊆ (if nt ∈ st.1 then st else dfs refs fuel nt st).1 ∧
        nt ∈ (if nt ∈ st.1 then st else dfs refs fuel nt st).1 := by
      by_cases h : nt ∈ st.1
      · rw [if_pos h]; exact ⟨subset_refl _, h⟩
      · rw [if_neg h]
        exact ⟨(dfs_visited refs fuel nt st).1, (dfs_visited refs fuel nt st).2⟩
    constructor
    · intro k hk
      rcases List.mem_cons.mp hk with h | h
      · subst h
        exact (ih _).2 hstep.2
      · exact (ih _).1 k h
    · exact subset_trans hstep.1 (ih _).2

theorem topologicalSort_marks_keys (refs : String → List String)
    (keys : List String) (fuel : Nat) (visited : Finset String) :
    ∀ k ∈ keys, k ∈ (topologicalSort refs keys fuel visited).1 := by
  intro k hk
  exact (topologicalSort_foldl_visited refs fuel keys (visited, [])).1 k hk

theorem topologicalSort_all_visited (refs : String → List String)
    (keys : List String) (fuel : Nat) (visited : Finset String)
    (h : ∀ k ∈ keys, k ∈ visited) :
    topologicalSort refs keys fuel visited = (visited, []) := by
  rw [topologicalSort]
  induction keys with
  | nil => rfl
  | cons nt l' ih =>
    rw [List.foldl_cons, if_pos (h nt (List.mem_cons_self nt l'))]
    exact ih (fun k hk => h k (List.mem_cons_of_mem nt hk))

theorem tablePhase_not_alpha (alphabet : List String)
    (follow : String → Finset String) (cache : String → List RuleInfo)
    (grammar : GrammarT) (n t : String) (ht : t ∉ alphabet) :
    ∀ (table : String × String → Option (List Conjunct)),
    tablePhase alphabet follow cache grammar table (n, t) = table (n, t) := by
  induction grammar with
  | nil => intro table; rfl
  | cons e rest ih =>
    intro table
    show tablePhase alphabet follow cache rest
        (disjUpdateTable alphabet follow e.1 (cache e.1) table) (n, t) = _
    rw [ih, disjUpdateTable_lookup, if_neg (fun hc => ht hc.2)]

theorem tablePhase_idem (alphabet : List String)
    (follow : String → Finset String) (cache : String → List RuleInfo)
    (grammar : GrammarT)
    (table : String × String → Option (List Conjunct))
    (hnd : (grammar.map Prod.fst).Nodup) :
    tablePhase alphabet follow cache grammar
      (tablePhase alphabet follow cache grammar table) =
    tablePhase alphabet follow cache grammar table := by
  funext k
  obtain ⟨n, t⟩ := k
  by_cases hn : n ∈ grammar.map Prod.fst
  · by_cases ht : t ∈ alphabet
    · rw [tablePhase_mem_lookup alphabet follow cache grammar n t hnd hn ht,
        tablePhase_mem_lookup alphabet follow cache grammar n t hnd hn ht]
      cases hf : (cache n).reverse.find?
          (fun i => decide (ruleQualifies follow n t i)) with
      | some i => rfl
      | none => rfl
    · rw [tablePhase_not_alpha alphabet follow cache grammar n t ht]
  · rw [tablePhase_not_mem alphabet follow cache grammar n t hn]

end BGParse

/-- C9 counterexample: for the grammar `S -> "a"`, running the analyser
a second time on the same AST from the state left by the first run does
not reproduce the first run's printed outputs: the global `visited` set
persists, so the second run's topological order is empty and its FIRST
listing is empty, unlike the first run's. -/
theorem C9_counterexample :
    (BGParse.runAnalysis ["a"] [("S", [[⟨true, [⟨.lit, "a"⟩]⟩]])] 1
        ((BGParse.runAnalysis ["a"] [("S", [[⟨true, [⟨.lit, "a"⟩]⟩]])] 1
          BGParse.initGState).1)).2.firstList ≠
    (BGParse.runAnalysis ["a"] [("S", [[⟨true, [⟨.lit, "a"⟩]⟩]])] 1
        BGParse.initGState).2.firstList := by
  intro h
  have hlen := congrArg List.length h
  have h2 : (BGParse.runAnalysis ["a"] [("S", [[⟨true, [⟨.lit, "a"⟩]⟩]])] 1
      ((BGParse.runAnalysis ["a"] [("S", [[⟨true, [⟨.lit, "a"⟩]⟩]])] 1
        BGParse.initGState).1)).2.firstList.length = 0 := rfl
  have h1 : (BGParse.runAnalysis ["a"] [("S", [[⟨true, [⟨.lit, "a"⟩]⟩]])] 1
      BGParse.initGState).2.firstList.length = 1 := rfl
  rw [h1, h2] at hlen
  exact Nat.zero_ne_one hlen

/-- C9 (amended): a second run of the analyser from the first run's
state leaves the analysis state — the visited set, the FIRST map, the
per-rule caches, the FOLLOW map, and the parsing table — unchanged
(the second run's topological order is empty because `visited`
persists, so the FIRST and FOLLOW phases do nothing, and rebuilding the
table rewrites every cell with its existing contents); the per-run
printed FIRST/FOLLOW listings, however, are not byte-identical, as the
counterexample shows. -/
theorem C9_second_run_state_unchanged (alphabet : List String)
    (grammar : BGParse.GrammarT) (fuel : Nat) (st0 : BGParse.GState)
    (hnd : (grammar.map Prod.fst).Nodup) :
    ((BGParse.runAnalysis alphabet grammar fuel
        ((BGParse.runAnalysis alphabet grammar fuel st0).1)).1).visited =
      ((BGParse.runAnalysis alphabet grammar fuel st0).1).visited ∧
    ((BGParse.runAnalysis alphabet grammar fuel
        ((BGParse.runAnalysis alphabet grammar fuel st0).1)).1).firstMap =
      ((BGParse.runAnalysis alphabet grammar fuel st0).1).firstMap ∧
    ((BGParse.runAnalysis alphabet grammar fuel
        ((BGParse.runAnalysis alphabet grammar fuel st0).1)).1).cache =
      ((BGParse.runAnalysis alphabet grammar fuel st0).1).cache ∧
    ((BGParse.runAnalysis alphabet grammar fuel
        ((BGParse.runAnalysis alphabet grammar fuel st0).1)).1).followMap =
      ((BGParse.runAnalysis alphabet grammar fuel st0).1).followMap ∧
    ((BGParse.runAnalysis alphabet grammar fuel
        ((BGParse.runAnalysis alphabet grammar fuel st0).1)).1).table =
      ((BGParse.runAnalysis alphabet grammar fuel st0).1).table := by
  set st1 := (BGParse.runAnalysis alphabet grammar fuel st0).1 with hst1
  have hvis : ∀ k ∈ grammar.map Prod.fst, k ∈ st1.visited := by
    intro k hk
    rw [hst1]
    exact BGParse.topologicalSort_marks_keys _ _ fuel st0.visited k hk
  have hts : BGParse.topologicalSort
      (fun nt => BGParse.refsListOfDisj (BGParse.disjOf grammar nt))
      (grammar.map Prod.fst) fuel st1.visited = (st1.visited, []) :=
    BGParse.topologicalSort_all_visited _ _ fuel st1.visited hvis
  have hrun2 : BGParse.runAnalysis alphabet grammar fuel st1 =
      (⟨st1.visited, st1.firstMap, st1.cache, st1.followMap,
        BGParse.tablePhase alphabet st1.followMap st1.cache grammar
          st1.table⟩, ⟨[], [], []⟩) := by
    rw [BGParse.runAnalysis]
    simp only [hts]
    rfl
  rw [hrun2]
  refine ⟨rfl, rfl, rfl, rfl, ?_⟩
  show BGParse.tablePhase alphabet st1.followMap st1.cache grammar
      st1.table = st1.table
  have htbl : st1.table = BGParse.tablePhase alphabet st1.followMap st1.cache
      grammar st0.table := by
    rw [hst1, BGParse.runAnalysis]
  rw [htbl]
  exact BGParse.tablePhase_idem alphabet st1.followMap st1.cache grammar
    st0.table hnd

/-- C9 witness: the state-stability theorem instantiated on the one-rule
grammar `S -> "a"`. -/
theorem C9_second_run_state_unchanged_witness :
    ((BGParse.runAnalysis ["a"] [("S", [[⟨true, [⟨.lit, "a"⟩]⟩]])] 1
        ((BGParse.runAnalysis ["a"] [("S", [[⟨true, [⟨.lit, "a"⟩]⟩]])] 1
          BGParse.initGState).1)).1).table =
      ((BGParse.runAnalysis ["a"] [("S", [[⟨true, [⟨.lit, "a"⟩]⟩]])] 1
        BGParse.initGState).1).table :=
  (C9_second_run_state_unchanged ["a"] [("S", [[⟨true, [⟨.lit, "a"⟩]⟩]])] 1
    BGParse.initGState (by decide)).2.2.2.2

--------------------------------
-- Theorems: C5
--------------------------------

namespace BGParse

theorem emitConjs_congr (f g : Conjunct → Nat → String)
    (h : ∀ c i, f c i = g c i) (conjs : List Conjunct) :
    emitConjs f conjs = emitConjs g conjs := by
  rw [emitConjs, emitConjs]
  suffices hgen : ∀ (acc : String × Nat),
      conjs.foldl (fun acc c => (acc.1 ++ f c acc.2, acc.2 + 1)) acc =
      conjs.foldl (fun acc c => (acc.1 ++ g c acc.2, acc.2 + 1)) acc by
    rw [hgen ("", 0)]
  induction conjs with
  | nil => intro acc; rfl
  | cons c rest ih =>
    intro acc
    rw [List.foldl_cons, List.foldl_cons, h c acc.2, ih]

theorem tableEntryConj_eq_spec (tNos nNos : String → Nat) (L : Nat)
    (hL : L > 1) (c : Conjunct) (i : Nat) :
    tableEntryConj tNos nNos c i L = specConjCode tNos nNos 0 L c i := by
  rw [tableEntryConj, specConjCode]
  by_cases h1 : c.pos = true ∧ symbolSequence tNos nNos c.symbols ≠ ""
  · rw [if_pos h1, if_pos h1, if_pos hL]
  · rw [if_neg h1, if_neg h1]

end BGParse

/-- C5 counterexample: for the table-entry rule `~"a" & "b"` — which has
more than one conjunct and has a positive conjunct — the emitted body
contains no `start = pos` statement at all (the emitter records
`start`/`end` only around conjunct number 0 and that conjunct is
negative here), so the first positive conjunct does not record
`start = pos`; nor does any `pos = end` statement follow the last
negative conjunct (that is emitted only when the rule's *last* conjunct
is negative). -/
theorem C5_counterexample :
    (([⟨false, [⟨BGParse.SymbKind.lit, "a"⟩]⟩,
       ⟨true, [⟨BGParse.SymbKind.lit, "b"⟩]⟩] :
        List BGParse.Conjunct).filter (·.pos)) ≠ [] ∧
    BGParse.strContains
      (BGParse.ruleBody (fun s => if s = "a" then 0 else 1) (fun _ => 0)
        [⟨false, [⟨BGParse.SymbKind.lit, "a"⟩]⟩,
         ⟨true, [⟨BGParse.SymbKind.lit, "b"⟩]⟩])
      "start = pos" = false ∧
    BGParse.strContains
      (BGParse.ruleBody (fun s => if s = "a" then 0 else 1) (fun _ => 0)
        [⟨false, [⟨BGParse.SymbKind.lit, "a"⟩]⟩,
         ⟨true, [⟨BGParse.SymbKind.lit, "b"⟩]⟩])
      "pos = end" = false := by
  refine ⟨by decide, ?_, ?_⟩
  · set_option maxRecDepth 8000 in decide
  · set_option maxRecDepth 8000 in decide

/-- C5 (amended): for a table entry with more than one conjunct whose
*first* conjunct is positive with a non-empty symbol sequence, the
emitted body follows the claimed protocol, with the `start`/`end`
recording on that first positive conjunct, each later positive
non-empty conjunct reset to `start` and required to stop at `end`, each
negative conjunct attempted from `start` and failing the rule iff it
succeeds at `end`, and `pos = end` emitted after the final conjunct
when it is negative (an epsilon-only positive conjunct emits nothing). -/
theorem C5_emitted_conjunct_protocol (tNos nNos : String → Nat)
    (c : BGParse.Conjunct) (cs : List BGParse.Conjunct)
    (hpos : c.pos = true)
    (hne : BGParse.symbolSequence tNos nNos c.symbols ≠ "")
    (hlen : (c :: cs : List BGParse.Conjunct).length > 1) :
    BGParse.ruleBody tNos nNos (c :: cs) =
      BGParse.specRuleBody tNos nNos (c :: cs) := by
  rw [BGParse.specRuleBody]
  have hp : (c.pos && decide
      (BGParse.symbolSequence tNos nNos c.symbols ≠ "")) = true := by
    simp [hpos, hne]
  rw [List.findIdx_cons, hp]
  show BGParse.ruleBody tNos nNos (c :: cs) =
    BGParse.emitConjs (fun c' i =>
      BGParse.specConjCode tNos nNos 0 (c :: cs).length c' i) (c :: cs)
  rw [BGParse.ruleBody]
  exact BGParse.emitConjs_congr _ _
    (BGParse.tableEntryConj_eq_spec tNos nNos (c :: cs).length hlen) (c :: cs)

/-- C5 witness: the amended protocol theorem applied to the two-conjunct
rule `"a" & ~"b"`. -/
theorem C5_emitted_conjunct_protocol_witness :
    BGParse.ruleBody (fun s => if s = "a" then 0 else 1) (fun _ => 0)
      [⟨true, [⟨BGParse.SymbKind.lit, "a"⟩]⟩,
       ⟨false, [⟨BGParse.SymbKind.lit, "b"⟩]⟩] =
    BGParse.specRuleBody (fun s => if s = "a" then 0 else 1) (fun _ => 0)
      [⟨true, [⟨BGParse.SymbKind.lit, "a"⟩]⟩,
       ⟨false, [⟨BGParse.SymbKind.lit, "b"⟩]⟩] :=
  C5_emitted_conjunct_protocol (fun s => if s = "a" then 0 else 1)
    (fun _ => 0) ⟨true, [⟨BGParse.SymbKind.lit, "a"⟩]⟩
    [⟨false, [⟨BGParse.SymbKind.lit, "b"⟩]⟩]
    rfl (by decide) (by decide)

--------------------------------
-- Theorems: C6
--------------------------------

namespace BGParse

/-- The conjunct invariant of claim C6. -/
def goodConj (c : Conjunct) : Prop :=
  c.symbols.length > 1 → ∀ s ∈ c.symbols, s.kind ≠ SymbKind.eps

theorem parseConjPB_good (ts : List Token) (c : Conjunct)
    (rest : List Token) (h : parseConjPB ts = some (c, rest)) :
    goodConj c := by
  cases hps : parseConjSymbols (stripNeg ts).2 with
  | none =>
    rw [parseConjPB, hps] at h
    exact absurd h (by simp)
  | some p =>
    obtain ⟨symbols, rest0⟩ := p
    rw [parseConjPB, hps] at h
    injection h with h'
    injection h' with h1 h2
    subst h1
    by_cases hlen : symbols.length > 1
    · rw [goodConj]
      simp only [if_pos hlen]
      intro _ s hs
      have := (List.mem_filter.mp hs).2
      simpa using this
    · rw [goodConj]
      simp only [if_neg hlen]
      intro hgt _ _
      exact absurd hgt hlen

theorem parseRulePB_good : ∀ (fuel : Nat) (ts : List Token) (r : RuleT)
    (rest : List Token), parseRulePB fuel ts = some (r, rest) →
    ∀ c ∈ r, goodConj c := by
  intro fuel
  induction fuel with
  | zero => intro ts r rest h; exact absurd h (by simp [parseRulePB])
  | succ fuel ih =>
    intro ts r rest h
    rw [parseRulePB] at h
    cases hc : parseConjPB ts with
    | none => rw [hc] at h; exact absurd h (by simp)
    | some p =>
      obtain ⟨c, rest0⟩ := p
      rw [hc] at h
      dsimp only at h
      cases rest0 with
      | nil => exact absurd h (by simp)
      | cons t r' =>
        dsimp only at h
        by_cases ht : t.type = TokType.CONJ
        · rw [if_pos ht] at h
          cases hrec : parseRulePB fuel r' with
          | none => rw [hrec] at h; exact absurd h (by simp)
          | some q =>
            obtain ⟨cs, rest'⟩ := q
            rw [hrec] at h
            injection h with h'
            injection h' with h1 h2
            subst h1
            intro c' hc'
            rcases List.mem_cons.mp hc' with hh | hh
            · exact hh ▸ parseConjPB_good ts c (t :: r') hc
            · exact ih r' cs rest' hrec c' hh
        · rw [if_neg ht] at h
          injection h with h'
          injection h' with h1 h2
          subst h1
          intro c' hc'
          rcases List.mem_cons.mp hc' with hh | hh
          · exact hh ▸ parseConjPB_good ts c (t :: r') hc
          · exact absurd hh (List.not_mem_nil c')

theorem parseDisjPB_good : ∀ (fuel : Nat) (ts : List Token) (d : DisjT)
    (rest : List Token), parseDisjPB fuel ts = some (d, rest) →
    ∀ r ∈ d, ∀ c ∈ r, goodConj c := by
  intro fuel
  induction fuel with
  | zero => intro ts d rest h; exact absurd h (by simp [parseDisjPB])
  | succ fuel ih =>
    intro ts d rest h
    rw [parseDisjPB] at h
    cases hr : parseRulePB fuel ts with
    | none => rw [hr] at h; exact absurd h (by simp)
    | some p =>
      obtain ⟨r0, rest0⟩ := p
      rw [hr] at h
      dsimp only at h
      cases rest0 with
      | nil => exact absurd h (by simp)
      | cons t r' =>
        dsimp only at h
        by_cases ht : t.type = TokType.DISJ
        · rw [if_pos ht] at h
          cases hrec : parseDisjPB fuel r' with
          | none => rw [hrec] at h; exact absurd h (by simp)
          | some q =>
            obtain ⟨rs, rest'⟩ := q
            rw [hrec] at h
            injection h with h'
            injection h' with h1 h2
            subst h1
            intro r1 hr1
            rcases List.mem_cons.mp hr1 with hh | hh
            · exact hh ▸ parseRulePB_good fuel ts r0 (t :: r') hr
            · exact ih r' rs rest' hrec r1 hh
        · rw [if_neg ht] at h
          by_cases hs : t.type = TokType.SC
          · rw [if_pos hs] at h
            injection h with h'
            injection h' with h1 h2
            subst h1
            intro r1 hr1
            rcases List.mem_cons.mp hr1 with hh | hh
            · exact hh ▸ parseRulePB_good fuel ts r0 (t :: r') hr
            · exact absurd hh (List.not_mem_nil r1)
          · rw [if_neg hs] at h
            exact absurd h (by simp)

theorem insertGrammar_mem (g : GrammarT) (nt : String) (d : DisjT)
    (p : String × DisjT) (h : p ∈ insertGrammar g nt d) :
    p = (nt, d) ∨ p ∈ g := by
  induction g with
  | nil =>
    rw [insertGrammar] at h
    rcases List.mem_cons.mp h with hh | hh
    · exact Or.inl hh
    · exact absurd hh (List.not_mem_nil p)
  | cons e rest ih =>
    obtain ⟨k, v⟩ := e
    rw [insertGrammar] at h
    by_cases hk : k = nt
    · rw [if_pos hk] at h
      rcases List.mem_cons.mp h with hh | hh
      · exact Or.inl hh
      · exact Or.inr (List.mem_cons_of_mem _ hh)
    · rw [if_neg hk] at h
      rcases List.mem_cons.mp h with hh | hh
      · exact Or.inr (hh ▸ List.mem_cons_self _ _)
      · rcases ih hh with hh2 | hh2
        · exact Or.inl hh2
        · exact Or.inr (List.mem_cons_of_mem _ hh2)

theorem parseGrammarLoop_good : ∀ (fuel : Nat) (ts : List Token)
    (acc g : GrammarT), parseGrammarLoop fuel ts acc = some g →
    (∀ p ∈ acc, ∀ r ∈ p.2, ∀ c ∈ r, goodConj c) →
    ∀ p ∈ g, ∀ r ∈ p.2, ∀ c ∈ r, goodConj c := by
  intro fuel
  induction fuel with
  | zero => intro ts acc g h; exact absurd h (by simp [parseGrammarLoop])
  | succ fuel ih =>
    intro ts acc g h hacc
    rw [parseGrammarLoop.eq_def] at h
    cases ts with
    | nil => exact absurd h (by simp)
    | cons t r =>
      dsimp only at h
      by_cases hnt : t.type = TokType.NON_TERM
      · rw [if_pos hnt] at h
        cases r with
        | nil => exact absurd h (by simp)
        | cons t2 r2 =>
          dsimp only at h
          by_cases hd : t2.type = TokType.DERIVE
          · rw [if_pos hd] at h
            cases hdisj : parseDisjPB fuel r2 with
            | none => rw [hdisj] at h; exact absurd h (by simp)
            | some q =>
              obtain ⟨d, rest⟩ := q
              rw [hdisj] at h
              dsimp only at h
              have hacc' : ∀ p ∈ insertGrammar acc t.lexeme d,
                  ∀ r ∈ p.2, ∀ c ∈ r, goodConj c := by
                intro p hp
                rcases insertGrammar_mem acc t.lexeme d p hp with hh | hh
                · subst hh
                  exact parseDisjPB_good fuel r2 d rest hdisj
                · exact hacc p hh
              cases rest with
              | nil => exact absurd h (by simp)
              | cons t3 r3 =>
                dsimp only at h
                by_cases he : t3.type = TokType.EOF_TOK
                · rw [if_pos he] at h
                  injection h with h'
                  subst h'
                  exact hacc'
                · rw [if_neg he] at h
                  exact ih (t3 :: r3) _ g h hacc'
          · rw [if_neg hd] at h
            exact absurd h (by simp)
      · rw [if_neg hnt] at h
        exact absurd h (by simp)

end BGParse

/-- C6 counterexample: the `bbnf_parser.cpp` variant of `parseConj`
performs no epsilon removal — on the conjunct `"x" "" "y"` it stores a
three-symbol sequence that still contains an EPSILON symbol, violating
the claimed invariant. -/
theorem C6_counterexample :
    BGParse.parseConjBP
      [⟨BGParse.TokType.STR_LIT, "x"⟩, ⟨BGParse.TokType.EPSILON, ""⟩,
       ⟨BGParse.TokType.STR_LIT, "y"⟩, ⟨BGParse.TokType.SC, ";"⟩] =
      some (⟨true, [⟨BGParse.SymbKind.lit, "x"⟩, ⟨BGParse.SymbKind.eps, ""⟩,
        ⟨BGParse.SymbKind.lit, "y"⟩]⟩, [⟨BGParse.TokType.SC, ";"⟩]) ∧
    ([⟨BGParse.SymbKind.lit, "x"⟩, ⟨BGParse.SymbKind.eps, ""⟩,
      ⟨BGParse.SymbKind.lit, "y"⟩] : List BGParse.Symb).length > 1 ∧
    (⟨BGParse.SymbKind.eps, ""⟩ : BGParse.Symb) ∈
      ([⟨BGParse.SymbKind.lit, "x"⟩, ⟨BGParse.SymbKind.eps, ""⟩,
        ⟨BGParse.SymbKind.lit, "y"⟩] : List BGParse.Symb) := by
  decide

/-- C6 (amended): in the `parsebbnf.cpp`/`main.cpp` parser, every
conjunct of every rule of the returned grammar map whose stored symbol
sequence is longer than one contains no EPSILON symbol, and a conjunct
whose only parsed symbol is an epsilon keeps that single EPSILON symbol;
the `bbnf_parser.cpp` variant performs no epsilon removal (see the
counterexample). -/
theorem C6_epsilon_removal (ts : List BGParse.Token) (g : BGParse.GrammarT)
    (h : BGParse.parseGrammarPB ts = some g) :
    (∀ p ∈ g, ∀ r ∈ p.2, ∀ c ∈ r, c.symbols.length > 1 →
      ∀ s ∈ c.symbols, s.kind ≠ BGParse.SymbKind.eps) ∧
    (∀ (ts' : List BGParse.Token) (s : BGParse.Symb)
        (rest : List BGParse.Token),
      BGParse.parseConjSymbols (BGParse.stripNeg ts').2 = some ([s], rest) →
      s.kind = BGParse.SymbKind.eps →
      BGParse.parseConjPB ts' =
        some (⟨(BGParse.stripNeg ts').1, [s]⟩, rest)) := by
  constructor
  · exact BGParse.parseGrammarLoop_good ts.length ts [] g h
      (fun p hp => absurd hp (List.not_mem_nil p))
  · intro ts' s rest hps _
    rw [BGParse.parseConjPB, hps]
    rfl

/-- C6 witness: the amended invariant applied to the grammar
`S -> "x" "" "y";` (whose conjunct drops the epsilon), together with the
lone-epsilon conjunct of `S -> "";`. -/
theorem C6_epsilon_removal_witness :
    ((BGParse.parseGrammarPB
      [⟨BGParse.TokType.NON_TERM, "S"⟩, ⟨BGParse.TokType.DERIVE, "->"⟩,
       ⟨BGParse.TokType.STR_LIT, "x"⟩, ⟨BGParse.TokType.EPSILON, ""⟩,
       ⟨BGParse.TokType.STR_LIT, "y"⟩, ⟨BGParse.TokType.SC, ";"⟩,
       ⟨BGParse.TokType.EOF_TOK, "EOF"⟩] =
      some [("S", [[⟨true, [⟨BGParse.SymbKind.lit, "x"⟩,
        ⟨BGParse.SymbKind.lit, "y"⟩]⟩]])]) ∧
    (∀ p ∈ ([("S", [[⟨true, [⟨BGParse.SymbKind.lit, "x"⟩,
          ⟨BGParse.SymbKind.lit, "y"⟩]⟩]])] : BGParse.GrammarT),
      ∀ r ∈ p.2, ∀ c ∈ r, c.symbols.length > 1 →
        ∀ s ∈ c.symbols, s.kind ≠ BGParse.SymbKind.eps)) ∧
    BGParse.parseConjPB
      [⟨BGParse.TokType.EPSILON, ""⟩, ⟨BGParse.TokType.SC, ";"⟩] =
      some (⟨true, [⟨BGParse.SymbKind.eps, ""⟩]⟩,
        [⟨BGParse.TokType.SC, ";"⟩]) := by
  refine ⟨⟨by decide, ?_⟩, ?_⟩
  · exact (C6_epsilon_removal
      [⟨BGParse.TokType.NON_TERM, "S"⟩, ⟨BGParse.TokType.DERIVE, "->"⟩,
       ⟨BGParse.TokType.STR_LIT, "x"⟩, ⟨BGParse.TokType.EPSILON, ""⟩,
       ⟨BGParse.TokType.STR_LIT, "y"⟩, ⟨BGParse.TokType.SC, ";"⟩,
       ⟨BGParse.TokType.EOF_TOK, "EOF"⟩]
      [("S", [[⟨true, [⟨BGParse.SymbKind.lit, "x"⟩,
        ⟨BGParse.SymbKind.lit, "y"⟩]⟩]])] (by decide)).1
  · exact (C6_epsilon_removal
      [⟨BGParse.TokType.NON_TERM, "S"⟩, ⟨BGParse.TokType.DERIVE, "->"⟩,
       ⟨BGParse.TokType.STR_LIT, "x"⟩, ⟨BGParse.TokType.EPSILON, ""⟩,
       ⟨BGParse.TokType.STR_LIT, "y"⟩, ⟨BGParse.TokType.SC, ";"⟩,
       ⟨BGParse.TokType.EOF_TOK, "EOF"⟩]
      [("S", [[⟨true, [⟨BGParse.SymbKind.lit, "x"⟩,
        ⟨BGParse.SymbKind.lit, "y"⟩]⟩]])] (by decide)).2
      [⟨BGParse.TokType.EPSILON, ""⟩, ⟨BGParse.TokType.SC, ";"⟩]
      ⟨BGParse.SymbKind.eps, ""⟩ [⟨BGParse.TokType.SC, ";"⟩]
      (by decide) rfl

--------------------------------
-- Theorems: C8
--------------------------------

namespace BGParse

theorem lexLiteral_quote (r : List Char) :
    lexLiteral ('"' :: r) = some ([], r) := by
  cases r with
  | nil => rfl
  | cons a l => rfl

theorem unescape_bs_quote (r2 : List Char) :
    unescape ('\\' :: '"' :: r2) = '"' :: unescape r2 := by
  rw [unescape.eq_def]
  dsimp only
  rw [if_pos rfl, if_pos rfl]

theorem unescape_bs_other (c2 : Char) (r2 : List Char) (h2 : c2 ≠ '"') :
    unescape ('\\' :: c2 :: r2) = '\\' :: unescape (c2 :: r2) := by
  rw [unescape.eq_def]
  dsimp only
  rw [if_pos rfl, if_neg h2]

theorem unescape_plain (c c2 : Char) (r2 : List Char) (hb : c ≠ '\\') :
    unescape (c :: c2 :: r2) = c :: unescape (c2 :: r2) := by
  rw [unescape.eq_def]
  dsimp only
  rw [if_neg hb]

theorem lexLiteral_wf_aux : ∀ (n : Nat) (raw : List Char),
    raw.length ≤ n → wfLit raw = true → ∀ (rest : List Char),
    lexLiteral (raw ++ '"' :: rest) = some (unescape raw, rest) := by
  intro n
  induction n with
  | zero =>
    intro raw hlen _ rest
    have hraw : raw = [] := List.eq_nil_of_length_eq_zero
      (Nat.le_zero.mp hlen)
    subst hraw
    exact lexLiteral_quote rest
  | succ n ih =>
    intro raw hlen hwf rest
    cases raw with
    | nil => exact lexLiteral_quote rest
    | cons c r =>
      cases r with
      | nil =>
        rw [wfLit.eq_def] at hwf
        dsimp only at hwf
        by_cases hq : c = '"'
        · rw [if_pos hq] at hwf
          exact absurd hwf (by simp)
        · rw [if_neg hq] at hwf
          by_cases hb : c = '\\'
          · rw [if_pos hb] at hwf
            exact absurd hwf (by simp)
          · show lexLiteral (c :: '"' :: rest) = some (unescape [c], rest)
            rw [lexLiteral.eq_def]
            dsimp only
            rw [if_neg hq, if_neg hb, lexLiteral_quote]
            rfl
      | cons c2 r2 =>
        rw [wfLit.eq_def] at hwf
        dsimp only at hwf
        by_cases hq : c = '"'
        · rw [if_pos hq] at hwf
          exact absurd hwf (by simp)
        · rw [if_neg hq] at hwf
          by_cases hb : c = '\\'
          · subst hb
            rw [if_pos rfl] at hwf
            by_cases h2 : c2 = '"'
            · subst h2
              rw [if_pos rfl] at hwf
              have hrec := ih r2 (by simp at hlen; omega) hwf rest
              show lexLiteral ('\\' :: '"' :: (r2 ++ '"' :: rest)) = _
              rw [lexLiteral.eq_def]
              dsimp only
              rw [if_neg (by decide), if_pos rfl, if_pos rfl, hrec,
                unescape_bs_quote]
            · rw [if_neg h2] at hwf
              have hrec := ih (c2 :: r2) (by simp at hlen ⊢; omega) hwf rest
              show lexLiteral ('\\' :: c2 :: (r2 ++ '"' :: rest)) = _
              rw [lexLiteral.eq_def]
              dsimp only
              rw [if_neg (by decide), if_pos rfl, if_neg h2]
              show (match lexLiteral (c2 :: r2 ++ '"' :: rest) with
                | some (s, r) => some ('\\' :: s, r)
                | none => none) = _
              rw [hrec, unescape_bs_other c2 r2 h2]
          · rw [if_neg hb] at hwf
            have hrec := ih (c2 :: r2) (by simp at hlen ⊢; omega) hwf rest
            show lexLiteral (c :: c2 :: (r2 ++ '"' :: rest)) = _
            rw [lexLiteral.eq_def]
            dsimp only
            rw [if_neg hq, if_neg hb]
            show (match lexLiteral (c2 :: r2 ++ '"' :: rest) with
              | some (s, r) => some (c :: s, r)
              | none => none) = _
            rw [hrec, unescape_plain c c2 r2 hb]

theorem lexLiteral_wf (raw : List Char) (hwf : wfLit raw = true)
    (rest : List Char) :
    lexLiteral (raw ++ '"' :: rest) = some (unescape raw, rest) :=
  lexLiteral_wf_aux raw.length raw (Nat.le_refl _) hwf rest

end BGParse

/-- C8 counterexample: the `input_parser.cpp` grammar lexer does not
return an EPSILON token for the empty literal `""` — it reports a fatal
lexer error — and for the identifier `epsilon` it returns an EPSILON
token whose lexeme is `"epsilon"`, not the empty string. -/
theorem C8_counterexample :
    BGParse.getTokenIP ['"', '"', ';'] = none ∧
    BGParse.getTokenIP ['e', 'p', 's', 'i', 'l', 'o', 'n', ';'] =
      some (⟨BGParse.TokType.EPSILON, "epsilon"⟩, [';']) ∧
    ("epsilon" : String) ≠ "" := by
  refine ⟨by decide, by decide, by decide⟩

/-- C8 (amended): the `parsebbnf.cpp`/`main.cpp` grammar lexer returns
an EPSILON token with empty lexeme both for the empty string literal
`""` and for the identifier `epsilon` (when followed by a
non-identifier character), and for any other well-delimited quoted
literal it returns a string-literal token whose lexeme is the literal's
contents with each `\"` escape sequence replaced by a single `"`; the
`input_parser.cpp` variant instead rejects `""` as a lexer error and
keeps the lexeme `epsilon` (see the counterexample). -/
theorem C8_lexer_tokens :
    (∀ rest : List Char, BGParse.getTokenPB ('"' :: '"' :: rest) =
      some (⟨BGParse.TokType.EPSILON, ""⟩, rest)) ∧
    (∀ (c : Char) (rest : List Char), BGParse.isAlnumUnd c = false →
      BGParse.getTokenPB
          ('e' :: 'p' :: 's' :: 'i' :: 'l' :: 'o' :: 'n' :: c :: rest) =
        some (⟨BGParse.TokType.EPSILON, ""⟩, c :: rest)) ∧
    (∀ (raw rest : List Char), BGParse.wfLit raw = true →
      BGParse.unescape raw ≠ [] →
      BGParse.getTokenPB ('"' :: (raw ++ '"' :: rest)) =
        some (⟨BGParse.TokType.STR_LIT,
          String.mk (BGParse.unescape raw)⟩, rest)) := by
  refine ⟨?_, ?_, ?_⟩
  · intro rest
    have hsp : ('"' :: '"' :: rest).dropWhile BGParse.isSpaceC =
        '"' :: '"' :: rest := by
      rw [List.dropWhile_cons, if_neg (by decide)]
    rw [BGParse.getTokenPB, hsp]
    dsimp only
    rw [if_pos rfl, BGParse.lexLiteral_quote]
    rfl
  · intro c rest hc
    have ht : ('e' :: 'p' :: 's' :: 'i' :: 'l' :: 'o' :: 'n' :: c ::
        rest).takeWhile BGParse.isAlnumUnd =
        ['e', 'p', 's', 'i', 'l', 'o', 'n'] := by
      rw [List.takeWhile_cons, if_pos (by decide),
        List.takeWhile_cons, if_pos (by decide),
        List.takeWhile_cons, if_pos (by decide),
        List.takeWhile_cons, if_pos (by decide),
        List.takeWhile_cons, if_pos (by decide),
        List.takeWhile_cons, if_pos (by decide),
        List.takeWhile_cons, if_pos (by decide),
        List.takeWhile_cons, if_neg (by simp [hc])]
    have hdp : ('e' :: 'p' :: 's' :: 'i' :: 'l' :: 'o' :: 'n' :: c ::
        rest).dropWhile BGParse.isAlnumUnd = c :: rest := by
      rw [List.dropWhile_cons, if_pos (by decide),
        List.dropWhile_cons, if_pos (by decide),
        List.dropWhile_cons, if_pos (by decide),
        List.dropWhile_cons, if_pos (by decide),
        List.dropWhile_cons, if_pos (by decide),
        List.dropWhile_cons, if_pos (by decide),
        List.dropWhile_cons, if_pos (by decide),
        List.dropWhile_cons, if_neg (by simp [hc])]
    have hsp : ('e' :: 'p' :: 's' :: 'i' :: 'l' :: 'o' :: 'n' :: c ::
        rest).dropWhile BGParse.isSpaceC =
        'e' :: 'p' :: 's' :: 'i' :: 'l' :: 'o' :: 'n' :: c :: rest := by
      rw [List.dropWhile_cons, if_neg (by decide)]
    rw [BGParse.getTokenPB, hsp]
    dsimp only
    rw [if_neg (by decide), if_pos (by decide), ht, hdp]
    rw [if_pos rfl]
  · intro raw rest hwf hne
    have hsp : ('"' :: (raw ++ '"' :: rest)).dropWhile BGParse.isSpaceC =
        '"' :: (raw ++ '"' :: rest) := by
      rw [List.dropWhile_cons, if_neg (by decide)]
    rw [BGParse.getTokenPB, hsp]
    dsimp only
    rw [if_pos rfl, BGParse.lexLiteral_wf raw hwf rest]
    dsimp only
    rw [if_neg (fun hcontra => hne (congrArg String.data hcontra))]

/-- C8 witness: the lexer theorem applied to the inputs `""`,
`epsilon;`, and the literal `"a\"b"`. -/
theorem C8_lexer_tokens_witness :
    BGParse.getTokenPB ['"', '"', ';'] =
      some (⟨BGParse.TokType.EPSILON, ""⟩, [';']) ∧
    BGParse.getTokenPB ['e', 'p', 's', 'i', 'l', 'o', 'n', ';'] =
      some (⟨BGParse.TokType.EPSILON, ""⟩, [';']) ∧
    BGParse.getTokenPB ('"' :: (['a', '\\', '"', 'b'] ++ ['"'])) =
      some (⟨BGParse.TokType.STR_LIT,
        String.mk (BGParse.unescape ['a', '\\', '"', 'b'])⟩, []) :=
  ⟨C8_lexer_tokens.1 [';'],
   C8_lexer_tokens.2.1 ';' [] (by decide),
   C8_lexer_tokens.2.2 ['a', '\\', '"', 'b'] [] (by decide) (by decide)⟩
